import Mathlib

/-!
Verification of `src/js/num2decstrl.js`.

The repository is a single JavaScript function `Num2FracStr` that converts a
number (or a numeric-looking string) to a canonical fixed-point decimal string.
The function:

1. renders its argument to text (`String(number)`);
2. matches the text against the regex
   `^([+-]?)0*([1-9][0-9]*|)(?:\.([0-9]*[1-9]|)0*)?(?:[eE]([+-]?[0-9]+))?$`;
3. on failure, returns the rendering unchanged for numeric-typed inputs and
   throws `Invalid Number: "…"` for string inputs;
4. on success, rebuilds a fixed-point digit string from the captured sign,
   integer digits, fraction digits and exponent, shifting the decimal point by
   the exponent;
5. normalizes the result with two `replace` calls (strip superfluous leading
   zeros; strip superfluous trailing fractional zeros) and prefixes the sign,
   returning `"0"` when the rebuilt string is empty.

Strings are embedded as `List Char` (accessed through `String.data` at the
interface).  The regex match is embedded as a deterministic scanner: the regex
is anchored at both ends and every backtracking choice is forced (the digit
classes of consecutive pieces are disjoint), so greedy left-to-right scanning
with trailing-zero trimming of capture group 3 is exactly the regex semantics.
A JavaScript number input is represented by its `String(number)` rendering,
which is an external capability of the host language.
-/

namespace Num2DecStr

set_option maxRecDepth 16384

/-- The regex character class `[0-9]`. -/
def isDigit (c : Char) : Bool := '0' ≤ c && c ≤ '9'

/-- The four capture groups of a successful match of
`/^([+-]?)0*([1-9][0-9]*|)(?:\.([0-9]*[1-9]|)0*)?(?:[eE]([+-]?[0-9]+))?$/`.
`fracGroup`/`expGroup` are `none` when the optional fraction/exponent part is
absent (JS `undefined`). -/
structure NumMatch where
  sign : List Char
  mantissa_int : List Char
  fracGroup : Option (List Char)
  expGroup : Option (List Char)
deriving DecidableEq

/-- Scanner for `([+-]?)`: an optional single sign character. -/
def takeSign : List Char → List Char × List Char
  | '+' :: t => (['+'], t)
  | '-' :: t => (['-'], t)
  | l => ([], l)

/-- Drop the trailing run of `'0'` characters (the effect of the greedy
`([0-9]*[1-9]|)0*` on the digit run after the decimal point). -/
def rstripZeros (l : List Char) : List Char := l.rdropWhile (fun c => c = '0')

/-- Scanner for `(?:\.([0-9]*[1-9]|)0*)?`: if a `'.'` is present, capture the
following digit run with its trailing zeros trimmed. -/
def takeFrac : List Char → Option (List Char) × List Char
  | '.' :: t => (some (rstripZeros (t.takeWhile isDigit)), t.dropWhile isDigit)
  | l => (none, l)

/-- Scanner for `(?:[eE]([+-]?[0-9]+))?`: `none` result means the whole regex
fails (an `e`/`E` with no digits cannot be saved by backtracking, because `$`
cannot match at the `e`). -/
def takeExp : List Char → Option (Option (List Char) × List Char)
  | [] => some (none, [])
  | c :: t =>
    if c = 'e' ∨ c = 'E' then
      let p := takeSign t
      let ds := p.2.takeWhile isDigit
      if ds = [] then none else some (some (p.1 ++ ds), p.2.dropWhile isDigit)
    else some (none, c :: t)

/-- `numStr.match(/^([+-]?)0*([1-9][0-9]*|)(?:\.([0-9]*[1-9]|)0*)?(?:[eE]([+-]?[0-9]+))?$/)`.
The leading `0*` is `dropWhile (= '0')`; group 2 is then the maximal digit run
(which starts with a nonzero digit whenever it is nonempty). -/
def matchNum (l : List Char) : Option NumMatch :=
  let p1 := takeSign l
  let l2 := p1.2.dropWhile (fun c => c = '0')
  let mint := l2.takeWhile isDigit
  let l3 := l2.dropWhile isDigit
  let p2 := takeFrac l3
  match takeExp p2.2 with
  | none => none
  | some (ex, l5) => if l5 = [] then some ⟨p1.1, mint, p2.1, ex⟩ else none

/-- Numeric value of a digit character. -/
def digitVal (c : Char) : Nat := c.toNat - '0'.toNat

/-- Value of a digit string read in base 10 (leading zeros contribute nothing). -/
def digitsToNat (l : List Char) : Nat := l.foldl (fun a c => 10 * a + digitVal c) 0

/-- Exact integer denoted by the exponent capture group (a sign followed by
digits).  `Number(match[4])` in the source holds a double, which equals this
exactly only while the magnitude stays below `2 ^ 53`; `expValJS` below models
the actual double, including rounding and saturation to an infinity. -/
def expVal : List Char → Int
  | '+' :: ds => (digitsToNat ds : Int)
  | '-' :: ds => -(digitsToNat ds : Int)
  | ds => (digitsToNat ds : Int)

/-- `const mantissa_frac = (match[3] ? match[3] : "")`. -/
def NumMatch.mantissa_frac (m : NumMatch) : List Char := m.fracGroup.getD []

/-- The exponent as an exact integer, `0` when the exponent part is absent
(idealization of the double `Number(match[4])`; see `NumMatch.expNumJS`). -/
def NumMatch.expNum (m : NumMatch) : Int :=
  match m.expGroup with
  | some g => expVal g
  | none => 0

/-- `if (exponent)`: `Number(undefined)` is `NaN` (falsy) and `0`/`-0` are
falsy, so the exponent branch runs iff the group matched with nonzero value. -/
def NumMatch.expActive (m : NumMatch) : Bool :=
  match m.expGroup with
  | some g => decide (expVal g ≠ 0)
  | none => false

/-- The `returnValue` string built by the body of `Num2FracStr` before the two
final `replace` normalizations (empty list encodes JS `""`), computed with
exact integer exponent arithmetic.  `reconstructJS` below is the
double-faithful version; `reconstructJS_agree` shows the two coincide
whenever the exponent arithmetic stays strictly below `2 ^ 53`. -/
def reconstruct (m : NumMatch) : List Char :=
  if m.expActive then
    let mantissa_str := m.mantissa_int ++ m.mantissa_frac
    if 0 < mantissa_str.length then
      let mantissa_int_len : Int := (m.mantissa_int.length : Int) + m.expNum
      if (mantissa_str.length : Int) ≤ mantissa_int_len then
        -- mantissa_str.padEnd(mantissa_int_len, "0")
        mantissa_str ++ List.replicate (mantissa_int_len - mantissa_str.length).toNat '0'
      else if 0 < mantissa_int_len then
        -- mantissa_str.slice(0, k) + "." + mantissa_str.slice(k)
        mantissa_str.take mantissa_int_len.toNat ++ '.' :: mantissa_str.drop mantissa_int_len.toNat
      else
        -- "0." + "0".repeat(-k) + mantissa_str
        '0' :: '.' :: (List.replicate (-mantissa_int_len).toNat '0' ++ mantissa_str)
    else []
  else if m.mantissa_frac ≠ [] then
    (if m.mantissa_int = [] then ['0'] else m.mantissa_int) ++ '.' :: m.mantissa_frac
  else if m.mantissa_int ≠ [] then
    m.mantissa_int
  else []

/-- `.replace(/^(?:0(?!\.|$))+/, "")`: strip each leading `'0'` that is
followed by another character which is not `'.'`. -/
def stripLead : List Char → List Char
  | '0' :: c :: rest => if c = '.' then '0' :: c :: rest else stripLead (c :: rest)
  | l => l

/-- `.replace(/(?:\.0+|(\.[0-9]*[1-9])0+)$/, "$1")`: at the leftmost `'.'`
whose suffix is a nonempty all-digit run ending in `'0'`, drop the trailing
zero run, and drop the `'.'` too when nothing remains of the run. -/
def stripTrail : List Char → List Char
  | [] => []
  | c :: rest =>
    if c = '.' ∧ rest ≠ [] ∧ rest.all isDigit ∧ rest.getLast? = some '0' then
      if rstripZeros rest = [] then [] else '.' :: rstripZeros rest
    else c :: stripTrail rest

/-- The value returned on a successful match:
`(returnValue) ? sign + returnValue.replace(..).replace(..) : "0"`. -/
def finalize (m : NumMatch) : List Char :=
  let rv := reconstruct m
  if rv = [] then ['0']
  else (if m.sign = ['-'] then ['-'] else []) ++ stripTrail (stripLead rv)

/-- The whole conversion on an already-rendered string: `none` encodes regex
failure. -/
def Num2FracStrCore (s : String) : Option String :=
  (matchNum s.data).map fun m => ⟨finalize m⟩

/-- The argument of `Num2FracStr`: a string, or a JS number represented by its
`String(number)` rendering (numeric-to-text rendering is an external capability
of the host language; finite numbers render as decimal or exponential literals,
and the special values render as `"NaN"`, `"Infinity"`, `"-Infinity"`). -/
inductive JSInput where
  | num (rendering : String)
  | str (s : String)

/-- `Num2FracStr` with the exact-integer-exponent idealization of the
reconstruction: on regex failure a numeric-typed input is returned as its
rendering and a string input raises `Invalid Number: "…"`.  `Num2FracStrJS`
below is the double-faithful version, which can additionally raise the
RangeError of `"0".repeat(+Infinity)`. -/
def Num2FracStr : JSInput → Except String String
  | .num r =>
    match Num2FracStrCore r with
    | some out => .ok out
    | none => .ok r
  | .str s =>
    match Num2FracStrCore s with
    | some out => .ok out
    | none => .error ("Invalid Number: \"" ++ s ++ "\"")

/-- Exact rational value denoted by a parsed literal:
`sign * (integerDigits.fractionalDigits) * 10 ^ exponent`. -/
def litVal (m : NumMatch) : ℚ :=
  (if m.sign = ['-'] then (-1 : ℚ) else 1) *
    ((digitsToNat m.mantissa_int : ℚ) +
      (digitsToNat m.mantissa_frac : ℚ) / 10 ^ m.mantissa_frac.length) *
    (10 : ℚ) ^ m.expNum

/-- Exact rational value of a plain fixed-point digit string (digits with at
most one `'.'`). -/
def decVal (l : List Char) : ℚ :=
  match l.dropWhile (fun c => c ≠ '.') with
  | [] => (digitsToNat l : ℚ)
  | _ :: f =>
    (digitsToNat (l.takeWhile (fun c => c ≠ '.')) : ℚ) +
      (digitsToNat f : ℚ) / 10 ^ f.length

/-- Rational denotation of a string through the numeric-literal grammar. -/
def strVal (s : String) : Option ℚ := (matchNum s.data).map litVal

/-- Raw pieces of a numeric literal as written: sign, integer digits (leading
zeros allowed), optional fraction digits (trailing zeros allowed), optional
exponent group. -/
structure RawParts where
  sg : List Char
  ip : List Char
  fp : Option (List Char)
  ep : Option (List Char)

/-- Rendering of the optional fraction part. -/
def fracRender : Option (List Char) → List Char
  | none => []
  | some f => '.' :: f

/-- Rendering of the optional exponent part with marker `em` (`'e'` or `'E'`). -/
def expRender (em : Char) : Option (List Char) → List Char
  | none => []
  | some g => em :: g

/-- An optional single sign character. -/
def IsSign (l : List Char) : Prop := l = [] ∨ l = ['+'] ∨ l = ['-']

/-- `l` is exactly the literal written from the raw parts `p` with exponent
marker `em`, and the parts are well-formed for the grammar
`sign? digit* ("." digit*)? (("e"|"E") sign? digit+)?`. -/
def IsRawLit (p : RawParts) (em : Char) (l : List Char) : Prop :=
  IsSign p.sg ∧
  (∀ c ∈ p.ip, isDigit c = true) ∧
  (∀ f, p.fp = some f → ∀ c ∈ f, isDigit c = true) ∧
  (∀ g, p.ep = some g →
    ∃ es ds, IsSign es ∧ ds ≠ [] ∧ (∀ c ∈ ds, isDigit c = true) ∧ g = es ++ ds) ∧
  (em = 'e' ∨ em = 'E') ∧
  l = p.sg ++ p.ip ++ fracRender p.fp ++ expRender em p.ep

/-- Exact rational value of a raw literal:
`sign * (integerDigits.fractionalDigits) * 10 ^ exponent`. -/
def rawVal (p : RawParts) : ℚ :=
  (if p.sg = ['-'] then (-1 : ℚ) else 1) *
    ((digitsToNat p.ip : ℚ) +
      (digitsToNat (p.fp.getD []) : ℚ) / 10 ^ (p.fp.getD []).length) *
    (10 : ℚ) ^ (match p.ep with | some g => expVal g | none => (0 : Int))

/-! ### The exponent as an ECMAScript double

`const exponent = Number(match[4])` holds an IEEE-754 double, not an exact
integer: ECMA-262 6.1.6.1 rounds the decimal value of the digit group to the
nearest double (ties to even) and saturates to an infinity from `2 ^ 1024`
upward, and `Number(undefined)` is NaN.  The sum
`mantissa_int.length + exponent` is rounded again, `padEnd` clamps its target
through ToLength, and `"0".repeat(+Infinity)` throws a RangeError
(ECMA-262 String.prototype.repeat).  The definitions below model that layer
exactly.  The `expVal`/`NumMatch.expNum`/`reconstruct` definitions above are
the exact-integer idealization of the same computation; `reconstructJS_agree`
proves the two agree whenever the exponent arithmetic stays strictly below
`2 ^ 53`, the regime in which every intermediate double is exact. -/

/-- An ECMAScript number as it arises in this function: an integral finite
double (the `fin` values built below are always representable), an infinity,
or NaN. -/
inductive JSNumber where
  | fin (n : Int)
  | posInf
  | negInf
  | nan
deriving DecidableEq

/-- Least `s` with `n / 2 ^ s < 2 ^ 53`, by fuel (callers pass enough fuel:
numbers below `2 ^ 1024` need at most 971 steps). -/
def ulpExpAux : Nat → Nat → Nat
  | 0, _ => 0
  | fuel + 1, n => if n < 2 ^ 53 then 0 else ulpExpAux fuel (n / 2) + 1

/-- Round a natural number to the nearest IEEE-754 double, ties to even;
`none` is overflow to +Infinity (ECMA-262 6.1.6.1: anything rounding to
`2 ^ 1024` or beyond becomes +∞). -/
def roundToDouble (n : Nat) : Option Nat :=
  if n < 2 ^ 53 then some n
  else if 2 ^ 1024 ≤ n then none
  else
    let s := ulpExpAux 1024 n
    let q := n / 2 ^ s
    let r := n % 2 ^ s
    let q' := if 2 ^ s < 2 * r ∨ (2 * r = 2 ^ s ∧ q % 2 = 1) then q + 1 else q
    if 2 ^ 1024 ≤ q' * 2 ^ s then none else some (q' * 2 ^ s)

/-- The double denoted by a nonnegative decimal digit string. -/
def natToDouble (n : Nat) : JSNumber :=
  match roundToDouble n with
  | some v => .fin (v : Int)
  | none => .posInf

/-- Negation of a double. -/
def JSNumber.neg : JSNumber → JSNumber
  | .fin n => .fin (-n)
  | .posInf => .negInf
  | .negInf => .posInf
  | .nan => .nan

/-- `Number(match[4])` as the double the source actually holds. -/
def expValJS : List Char → JSNumber
  | '+' :: ds => natToDouble (digitsToNat ds)
  | '-' :: ds => (natToDouble (digitsToNat ds)).neg
  | ds => natToDouble (digitsToNat ds)

/-- `Number(match[4])`, with `Number(undefined) = NaN` when the exponent part
is absent. -/
def NumMatch.expNumJS (m : NumMatch) : JSNumber :=
  match m.expGroup with
  | some g => expValJS g
  | none => .nan

/-- JS truthiness of a number: `0`, `-0` and NaN are falsy. -/
def JSNumber.truthy : JSNumber → Bool
  | .fin n => decide (n ≠ 0)
  | .nan => false
  | _ => true

/-- Double addition of a string length and an integral double: IEEE addition
is correctly rounded, so the exact integer sum is rounded once. -/
def jsAddNat (a : Nat) : JSNumber → JSNumber
  | .fin n =>
    if 0 ≤ (a : Int) + n then natToDouble (((a : Int) + n).toNat)
    else (natToDouble ((-((a : Int) + n)).toNat)).neg
  | .posInf => .posInf
  | .negInf => .negInf
  | .nan => .nan

/-- JS `<=` between a string length and a double (NaN compares false). -/
def jsLeNat (a : Nat) : JSNumber → Bool
  | .fin n => decide ((a : Int) ≤ n)
  | .posInf => true
  | .negInf => false
  | .nan => false

/-- JS `0 < x` (NaN compares false). -/
def JSNumber.pos : JSNumber → Bool
  | .fin n => decide (0 < n)
  | .posInf => true
  | _ => false

/-- ECMA-262 ToLength: clamp into `[0, 2 ^ 53 - 1]` (NaN to `0`). -/
def JSNumber.toLength : JSNumber → Nat
  | .fin n => if n ≤ 0 then 0 else min n.toNat (2 ^ 53 - 1)
  | .posInf => 2 ^ 53 - 1
  | _ => 0

/-- The slice index denoted by a double; only applied to finite values here
(the slice branch is reachable only with a finite positive `mantissa_int_len`). -/
def JSNumber.sliceIdx : JSNumber → Nat
  | .fin n => n.toNat
  | _ => 0

/-- `str.padEnd(x, "0")` (ECMA-262 StringPad, via ToLength). -/
def jsPadEnd (s : List Char) (x : JSNumber) : List Char :=
  if x.toLength ≤ s.length then s else s ++ List.replicate (x.toLength - s.length) '0'

/-- `"0".repeat(x)`: throws a RangeError (modelled `.error ()`) when the count
is negative or +Infinity (ECMA-262 String.prototype.repeat); NaN counts as 0. -/
def jsRepeatZero (x : JSNumber) : Except Unit (List Char) :=
  match x with
  | .posInf => .error ()
  | .negInf => .error ()
  | .nan => .ok []
  | .fin n => if n < 0 then .error () else .ok (List.replicate n.toNat '0')

/-- `returnValue` computed with the actual double exponent; `.error ()` is the
RangeError thrown by `"0".repeat(+Infinity)` when `mantissa_int_len` is
-Infinity. -/
def reconstructJS (m : NumMatch) : Except Unit (List Char) :=
  if m.expNumJS.truthy then
    let mantissa_str := m.mantissa_int ++ m.mantissa_frac
    if 0 < mantissa_str.length then
      let mantissa_int_len := jsAddNat m.mantissa_int.length m.expNumJS
      if jsLeNat mantissa_str.length mantissa_int_len then
        .ok (jsPadEnd mantissa_str mantissa_int_len)
      else if mantissa_int_len.pos then
        .ok (mantissa_str.take mantissa_int_len.sliceIdx
          ++ '.' :: mantissa_str.drop mantissa_int_len.sliceIdx)
      else
        (jsRepeatZero mantissa_int_len.neg).map
          (fun zs => '0' :: '.' :: (zs ++ mantissa_str))
    else .ok []
  else if m.mantissa_frac ≠ [] then
    .ok ((if m.mantissa_int = [] then ['0'] else m.mantissa_int) ++ '.' :: m.mantissa_frac)
  else if m.mantissa_int ≠ [] then
    .ok m.mantissa_int
  else .ok []

/-- The two ways the source can throw: the explicit `Invalid Number` error for
ill-formed string inputs, and the RangeError from `"0".repeat`. -/
inductive JSErr where
  | invalidNumber (msg : String)
  | rangeError
deriving DecidableEq

/-- `sign + returnValue.replace(..).replace(..)` (or `"0"`), reached only when
the reconstruction did not throw. -/
def finalizeJS (m : NumMatch) : Except Unit (List Char) :=
  match reconstructJS m with
  | .error e => .error e
  | .ok rv =>
    .ok (if rv = [] then ['0']
         else (if m.sign = ['-'] then ['-'] else []) ++ stripTrail (stripLead rv))

/-- `Num2FracStr` with the exponent held as an actual double: the RangeError
from the reconstruction propagates for either input kind, and the explicit
invalid-number throw still happens exactly for string inputs that fail the
regex. -/
def Num2FracStrJS : JSInput → Except JSErr String
  | .num r =>
    match matchNum r.data with
    | none => .ok r
    | some m =>
      match finalizeJS m with
      | .ok out => .ok ⟨out⟩
      | .error _ => .error .rangeError
  | .str s =>
    match matchNum s.data with
    | none => .error (.invalidNumber ("Invalid Number: \"" ++ s ++ "\""))
    | some m =>
      match finalizeJS m with
      | .ok out => .ok ⟨out⟩
      | .error _ => .error .rangeError

/-! ### Generic list helpers -/

theorem takeWhile_append_all {p : Char → Bool} {a : List Char} (b : List Char)
    (h : ∀ c ∈ a, p c = true) : (a ++ b).takeWhile p = a ++ b.takeWhile p := by
  induction a with
  | nil => simp
  | cons c t ih =>
    have hc : p c = true := h c (by simp)
    simp only [List.cons_append, List.takeWhile_cons, hc, if_true]
    rw [ih fun x hx => h x (by simp [hx])]

theorem dropWhile_append_all {p : Char → Bool} {a : List Char} (b : List Char)
    (h : ∀ c ∈ a, p c = true) : (a ++ b).dropWhile p = b.dropWhile p := by
  induction a with
  | nil => simp
  | cons c t ih =>
    have hc : p c = true := h c (by simp)
    simp only [List.cons_append, List.dropWhile_cons, hc, if_true]
    exact ih fun x hx => h x (by simp [hx])

theorem takeWhile_cons_neg {p : Char → Bool} {c : Char} (t : List Char)
    (h : p c = false) : (c :: t).takeWhile p = [] := by
  simp [List.takeWhile_cons, h]

theorem dropWhile_cons_neg {p : Char → Bool} {c : Char} (t : List Char)
    (h : p c = false) : (c :: t).dropWhile p = c :: t := by
  simp [List.dropWhile_cons, h]

theorem takeWhile_head_not {p : Char → Bool} {l : List Char}
    (h : ∀ a, l.head? = some a → p a = false) : l.takeWhile p = [] := by
  cases l with
  | nil => rfl
  | cons c t => exact takeWhile_cons_neg t (h c rfl)

theorem dropWhile_head_not {p : Char → Bool} {l : List Char}
    (h : ∀ a, l.head? = some a → p a = false) : l.dropWhile p = l := by
  cases l with
  | nil => rfl
  | cons c t => exact dropWhile_cons_neg t (h c rfl)

theorem head?_dropWhile_not (p : Char → Bool) (l : List Char) :
    ∀ a, (l.dropWhile p).head? = some a → p a = false := by
  induction l with
  | nil => intro a h; simp at h
  | cons c t ih =>
    intro a h
    rw [List.dropWhile_cons] at h
    by_cases hc : p c = true
    · rw [if_pos hc] at h; exact ih a h
    · rw [if_neg hc] at h
      simp only [List.head?_cons, Option.some.injEq] at h
      subst h
      exact Bool.eq_false_iff.mpr hc

theorem head?_takeWhile (p : Char → Bool) (l : List Char) :
    ∀ a, (l.takeWhile p).head? = some a → l.head? = some a := by
  cases l with
  | nil => intro a h; simp at h
  | cons c t =>
    intro a h
    rw [List.takeWhile_cons] at h
    by_cases hc : p c = true
    · rw [if_pos hc] at h
      simpa using h
    · rw [if_neg hc] at h; simp at h

/-! ### Digit-string arithmetic -/

theorem digitsToNat_nil : digitsToNat [] = 0 := rfl

theorem foldl_digits (b : List Char) (x : Nat) :
    b.foldl (fun a c => 10 * a + digitVal c) x = x * 10 ^ b.length + digitsToNat b := by
  induction b generalizing x with
  | nil => simp [digitsToNat]
  | cons c t ih =>
    simp only [List.foldl_cons, digitsToNat, List.length_cons]
    rw [ih (10 * x + digitVal c), ih (10 * 0 + digitVal c)]
    ring

theorem digitsToNat_append (a b : List Char) :
    digitsToNat (a ++ b) = digitsToNat a * 10 ^ b.length + digitsToNat b := by
  unfold digitsToNat
  rw [List.foldl_append]
  exact foldl_digits b _

theorem digitsToNat_cons (c : Char) (t : List Char) :
    digitsToNat (c :: t) = digitVal c * 10 ^ t.length + digitsToNat t := by
  have := digitsToNat_append [c] t
  simpa [digitsToNat, digitVal] using this

theorem digitsToNat_replicate_zero (k : Nat) :
    digitsToNat (List.replicate k '0') = 0 := by
  induction k with
  | zero => rfl
  | succ n ih =>
    rw [List.replicate_succ, digitsToNat_cons]
    simp [digitVal, ih]

theorem digitsToNat_all_zero {l : List Char} (h : ∀ c ∈ l, c = '0') :
    digitsToNat l = 0 := by
  induction l with
  | nil => rfl
  | cons c t ih =>
    rw [digitsToNat_cons, h c (by simp), ih fun x hx => h x (by simp [hx])]
    simp [digitVal]

theorem digitsToNat_dropZeros (l : List Char) :
    digitsToNat (l.dropWhile (fun c => c = '0')) = digitsToNat l := by
  conv_rhs => rw [← List.takeWhile_append_dropWhile (fun c => decide (c = '0')) l]
  rw [digitsToNat_append]
  have : digitsToNat (l.takeWhile fun c => decide (c = '0')) = 0 :=
    digitsToNat_all_zero fun c hc => by simpa using List.mem_takeWhile_imp hc
  simp [this]

theorem rstripZeros_spec (l : List Char) :
    ∃ k, l = rstripZeros l ++ List.replicate k '0' := by
  unfold rstripZeros List.rdropWhile
  refine ⟨(l.reverse.takeWhile fun c => decide (c = '0')).length, ?_⟩
  have hsplit := List.takeWhile_append_dropWhile (fun c => decide (c = '0')) l.reverse
  have hrep : l.reverse.takeWhile (fun c => decide (c = '0'))
      = List.replicate (l.reverse.takeWhile fun c => decide (c = '0')).length '0' := by
    apply List.eq_replicate_of_mem
    intro c hc
    simpa using List.mem_takeWhile_imp hc
  calc l = l.reverse.reverse := by simp
    _ = (l.reverse.takeWhile (fun c => decide (c = '0'))
          ++ l.reverse.dropWhile (fun c => decide (c = '0'))).reverse := by rw [hsplit]
    _ = _ := by
        rw [List.reverse_append]
        congr 1
        rw [hrep]
        simp [List.reverse_replicate]

theorem rstripZeros_getLast {l : List Char} (h : rstripZeros l ≠ []) :
    (rstripZeros l).getLast? ≠ some '0' := by
  intro hc
  rw [List.getLast?_eq_getLast _ h] at hc
  simp only [Option.some.injEq] at hc
  exact List.rdropWhile_last_not (fun c => decide (c = '0')) l h
    (by simp only [decide_eq_true_eq]; exact hc)

theorem rstripZeros_eq_self {l : List Char} (h : l.getLast? ≠ some '0') :
    rstripZeros l = l := by
  unfold rstripZeros
  rw [List.rdropWhile_eq_self_iff]
  intro hl hc
  apply h
  rw [List.getLast?_eq_getLast _ hl]
  simpa using hc

theorem rstripZeros_sub {l : List Char} : ∀ c ∈ rstripZeros l, c ∈ l := by
  intro c hc
  obtain ⟨k, hk⟩ := rstripZeros_spec l
  rw [hk]
  exact List.mem_append_left _ hc

theorem digitsToNat_rstrip_div (f : List Char) :
    (digitsToNat (rstripZeros f) : ℚ) / 10 ^ (rstripZeros f).length
      = (digitsToNat f : ℚ) / 10 ^ f.length := by
  obtain ⟨k, hk⟩ := rstripZeros_spec f
  conv_rhs => rw [hk]
  rw [digitsToNat_append, digitsToNat_replicate_zero, List.length_append,
    List.length_replicate]
  push_cast
  have hl0 : ((10 : ℚ) ^ (rstripZeros f).length) ≠ 0 := by positivity
  have hk0 : ((10 : ℚ) ^ k) ≠ 0 := by positivity
  rw [add_zero, pow_add, div_eq_div_iff hl0 (mul_ne_zero hl0 hk0)]
  ring

/-! ### Character-class facts -/

theorem ne_of_isDigit {c d : Char} (h : isDigit c = true) (hd : isDigit d = false) :
    c ≠ d := by
  intro he
  rw [he, hd] at h
  exact Bool.false_ne_true h

theorem digitVal_pos {c : Char} (hd : isDigit c = true) (hne : c ≠ '0') :
    1 ≤ digitVal c := by
  simp only [isDigit, Bool.and_eq_true, decide_eq_true_eq] at hd
  have h48 : '0'.toNat ≤ c.toNat := BitVec.le_def.mp (UInt32.le_def.mp (Char.le_def.mp hd.1))
  have hne' : c.toNat ≠ '0'.toNat := fun h => hne (Char.ext (UInt32.toNat.inj h))
  unfold digitVal
  omega

theorem digitsToNat_pos_head {c : Char} (t : List Char)
    (hd : isDigit c = true) (hne : c ≠ '0') : 0 < digitsToNat (c :: t) := by
  rw [digitsToNat_cons]
  have h1 := digitVal_pos hd hne
  have hp : 0 < (10 : ℕ) ^ t.length := pow_pos (by norm_num) _
  exact Nat.lt_of_lt_of_le (Nat.mul_pos h1 hp) (Nat.le_add_right _ _)

theorem digitsToNat_pos_last {l : List Char} {c : Char} (hl : l.getLast? = some c)
    (hd : isDigit c = true) (hne : c ≠ '0') : 0 < digitsToNat l := by
  obtain ⟨l', rfl⟩ := List.getLast?_eq_some_iff.mp hl
  rw [digitsToNat_append]
  have h1 := digitVal_pos hd hne
  have h2 : 0 < digitsToNat [c] := by
    rw [digitsToNat_cons]
    simp only [List.length_nil, pow_zero, mul_one, digitsToNat_nil, add_zero]
    exact h1
  omega

/-! ### Scanner stage lemmas -/

theorem takeSign_ne {c : Char} (t : List Char) (h1 : c ≠ '+') (h2 : c ≠ '-') :
    takeSign (c :: t) = ([], c :: t) := by
  simp [takeSign, h1, h2]

theorem takeSign_append (l : List Char) : (takeSign l).1 ++ (takeSign l).2 = l := by
  cases l with
  | nil => rfl
  | cons c t =>
    by_cases h1 : c = '+'
    · subst h1; rfl
    · by_cases h2 : c = '-'
      · subst h2; rfl
      · rw [takeSign_ne t h1 h2]; rfl

theorem takeSign_isSign (l : List Char) : IsSign (takeSign l).1 := by
  cases l with
  | nil => exact Or.inl rfl
  | cons c t =>
    by_cases h1 : c = '+'
    · subst h1; exact Or.inr (Or.inl rfl)
    · by_cases h2 : c = '-'
      · subst h2; exact Or.inr (Or.inr rfl)
      · rw [takeSign_ne t h1 h2]; exact Or.inl rfl

theorem takeSign_prepend {sg rest : List Char} (hs : IsSign sg)
    (hr : sg = [] → ∀ a, rest.head? = some a → a ≠ '+' ∧ a ≠ '-') :
    takeSign (sg ++ rest) = (sg, rest) := by
  rcases hs with h | h | h
  · subst h
    cases rest with
    | nil => rfl
    | cons c t =>
      obtain ⟨h1, h2⟩ := hr rfl c rfl
      simpa using takeSign_ne t h1 h2
  · subst h; rfl
  · subst h; rfl

theorem takeFrac_not_dot {l : List Char} (h : ∀ a, l.head? = some a → a ≠ '.') :
    takeFrac l = (none, l) := by
  cases l with
  | nil => rfl
  | cons c t =>
    have := h c rfl
    simp [takeFrac, this]

theorem takeFrac_dot (t : List Char) :
    takeFrac ('.' :: t) = (some (rstripZeros (t.takeWhile isDigit)), t.dropWhile isDigit) := rfl

theorem takeExp_nil : takeExp [] = some (none, []) := rfl

theorem takeExp_not_e {l : List Char} (h : ∀ a, l.head? = some a → a ≠ 'e' ∧ a ≠ 'E') :
    takeExp l = some (none, l) := by
  cases l with
  | nil => rfl
  | cons c t =>
    obtain ⟨h1, h2⟩ := h c rfl
    simp [takeExp, h1, h2]

/-! ### Inversion of the matcher -/

theorem matchNum_inv {l : List Char} {m : NumMatch} (h : matchNum l = some m) :
    m.sign = (takeSign l).1 ∧
      m.mantissa_int = ((takeSign l).2.dropWhile (fun c => c = '0')).takeWhile isDigit ∧
      m.fracGroup = (takeFrac (((takeSign l).2.dropWhile (fun c => c = '0')).dropWhile isDigit)).1 ∧
      takeExp (takeFrac (((takeSign l).2.dropWhile (fun c => c = '0')).dropWhile isDigit)).2
        = some (m.expGroup, []) := by
  simp only [matchNum] at h
  split at h
  · exact absurd h (by simp)
  · rename_i ex l5 hte
    by_cases h5 : l5 = []
    · rw [if_pos h5] at h
      obtain rfl := Option.some.inj h
      subst h5
      exact ⟨rfl, rfl, rfl, hte⟩
    · rw [if_neg h5] at h
      exact absurd h (by simp)

theorem takeFrac_inv {l : List Char} {fr : Option (List Char)} {rest : List Char}
    (h : takeFrac l = (fr, rest)) :
    (fr = none ∧ rest = l) ∨
      ∃ t, l = '.' :: t ∧ fr = some (rstripZeros (t.takeWhile isDigit)) ∧
        rest = t.dropWhile isDigit := by
  cases l with
  | nil =>
    refine Or.inl ?_
    have : takeFrac ([] : List Char) = (none, []) := rfl
    rw [this] at h
    exact ⟨(Prod.mk.injEq _ _ _ _ ▸ h).1.symm ▸ rfl, ((Prod.mk.injEq _ _ _ _ ▸ h).2).symm⟩
  | cons c t =>
    by_cases hc : c = '.'
    · subst hc
      rw [takeFrac_dot] at h
      obtain ⟨h1, h2⟩ := Prod.mk.injEq _ _ _ _ ▸ h
      exact Or.inr ⟨t, rfl, h1.symm, h2.symm⟩
    · have hne : takeFrac (c :: t) = (none, c :: t) := by simp [takeFrac, hc]
      rw [hne] at h
      obtain ⟨h1, h2⟩ := Prod.mk.injEq _ _ _ _ ▸ h
      exact Or.inl ⟨h1.symm, h2.symm⟩

theorem takeExp_inv {l : List Char} {ex : Option (List Char)}
    (h : takeExp l = some (ex, [])) :
    (l = [] ∧ ex = none) ∨
      ∃ em es ds, (em = 'e' ∨ em = 'E') ∧ IsSign es ∧ ds ≠ [] ∧
        (∀ c ∈ ds, isDigit c = true) ∧ l = em :: (es ++ ds) ∧ ex = some (es ++ ds) := by
  cases l with
  | nil =>
    rw [takeExp_nil] at h
    obtain ⟨h1, _⟩ := Prod.mk.injEq _ _ _ _ ▸ Option.some.inj h
    exact Or.inl ⟨rfl, h1.symm⟩
  | cons c t =>
    by_cases hc : c = 'e' ∨ c = 'E'
    · have hunf : takeExp (c :: t)
          = (if (takeSign t).2.takeWhile isDigit = [] then none
             else some (some ((takeSign t).1 ++ (takeSign t).2.takeWhile isDigit),
               (takeSign t).2.dropWhile isDigit)) := by
        simp only [takeExp, if_pos hc]
      rw [hunf] at h
      by_cases hds : (takeSign t).2.takeWhile isDigit = []
      · rw [if_pos hds] at h
        exact absurd h (by simp)
      · rw [if_neg hds] at h
        obtain ⟨h1, h2⟩ := Prod.mk.injEq _ _ _ _ ▸ Option.some.inj h
        refine Or.inr ⟨c, (takeSign t).1, (takeSign t).2.takeWhile isDigit, hc,
          takeSign_isSign t, hds, ?_, ?_, h1.symm⟩
        · intro x hx; exact List.mem_takeWhile_imp hx
        · have ht : t = (takeSign t).1 ++ (takeSign t).2 := (takeSign_append t).symm
          have h2' : (takeSign t).2 = (takeSign t).2.takeWhile isDigit := by
            conv_lhs => rw [← List.takeWhile_append_dropWhile isDigit (takeSign t).2]
            rw [h2, List.append_nil]
          rw [List.cons_inj_right]
          conv_lhs => rw [ht]
          rw [← h2']
    · push_neg at hc
      rw [takeExp_not_e (fun a ha => by
        simp only [List.head?_cons, Option.some.injEq] at ha
        exact ha ▸ hc)] at h
      obtain ⟨_, h2⟩ := Prod.mk.injEq _ _ _ _ ▸ Option.some.inj h
      exact absurd h2.symm (by simp)

theorem matchNum_fields {l : List Char} {m : NumMatch} (h : matchNum l = some m) :
    IsSign m.sign ∧
    (∀ c ∈ m.mantissa_int, isDigit c = true) ∧
    m.mantissa_int.head? ≠ some '0' ∧
    (∀ c ∈ m.mantissa_frac, isDigit c = true) ∧
    m.mantissa_frac.getLast? ≠ some '0' := by
  obtain ⟨hs, hi, hf, _⟩ := matchNum_inv h
  refine ⟨hs ▸ takeSign_isSign l, ?_, ?_, ?_, ?_⟩
  · intro c hc
    rw [hi] at hc
    exact List.mem_takeWhile_imp hc
  · intro hc
    rw [hi] at hc
    have h2 := head?_takeWhile isDigit _ _ hc
    have h3 := head?_dropWhile_not (fun c => c = '0') (takeSign l).2 _ h2
    simp at h3
  · have hfr : takeFrac (((takeSign l).2.dropWhile (fun c => c = '0')).dropWhile isDigit)
        = ((takeFrac (((takeSign l).2.dropWhile (fun c => c = '0')).dropWhile isDigit)).1,
           (takeFrac (((takeSign l).2.dropWhile (fun c => c = '0')).dropWhile isDigit)).2) := rfl
    rcases takeFrac_inv hfr with ⟨h1, _⟩ | ⟨t, _, h1, _⟩
    · intro c hc
      rw [NumMatch.mantissa_frac, hf, h1] at hc
      simp at hc
    · intro c hc
      rw [NumMatch.mantissa_frac, hf, h1] at hc
      simp only [Option.getD_some] at hc
      exact List.mem_takeWhile_imp (rstripZeros_sub c hc)
  · have hfr : takeFrac (((takeSign l).2.dropWhile (fun c => c = '0')).dropWhile isDigit)
        = ((takeFrac (((takeSign l).2.dropWhile (fun c => c = '0')).dropWhile isDigit)).1,
           (takeFrac (((takeSign l).2.dropWhile (fun c => c = '0')).dropWhile isDigit)).2) := rfl
    rcases takeFrac_inv hfr with ⟨h1, _⟩ | ⟨t, _, h1, _⟩
    · rw [NumMatch.mantissa_frac, hf, h1]
      simp
    · rw [NumMatch.mantissa_frac, hf, h1]
      simp only [Option.getD_some]
      by_cases hz : rstripZeros (t.takeWhile isDigit) = []
      · rw [hz]; simp
      · exact rstripZeros_getLast hz

/-! ### Parser completeness on raw literals -/

theorem dropWhile_append_not_head {q : Char → Bool} {a b : List Char}
    (hb : ∀ x, b.head? = some x → q x = false) :
    (a ++ b).dropWhile q = a.dropWhile q ++ b := by
  induction a with
  | nil => simp [dropWhile_head_not hb]
  | cons c t ih =>
    by_cases hq : q c = true
    · simp only [List.cons_append, List.dropWhile_cons, hq, if_true]
      exact ih
    · simp only [List.cons_append, List.dropWhile_cons, hq, Bool.false_eq_true, if_false]

theorem takeWhile_append_not_head {q : Char → Bool} {a b : List Char}
    (ha : ∀ c ∈ a, q c = true) (hb : ∀ x, b.head? = some x → q x = false) :
    (a ++ b).takeWhile q = a := by
  rw [takeWhile_append_all b ha, takeWhile_head_not hb, List.append_nil]

theorem takeWhile_all {q : Char → Bool} {a : List Char} (ha : ∀ c ∈ a, q c = true) :
    a.takeWhile q = a := by
  have := @takeWhile_append_all q a [] ha
  simpa using this

theorem dropWhile_all {q : Char → Bool} {a : List Char} (ha : ∀ c ∈ a, q c = true) :
    a.dropWhile q = [] := by
  have := @dropWhile_append_all q a [] ha
  simpa using this

theorem head?_fracExp (p : RawParts) (em : Char) (hem : em = 'e' ∨ em = 'E') :
    ∀ x, (fracRender p.fp ++ expRender em p.ep).head? = some x →
      x = '.' ∨ x = 'e' ∨ x = 'E' := by
  intro x hx
  cases hfp : p.fp with
  | some f =>
    rw [hfp] at hx
    simp only [fracRender, List.cons_append, List.head?_cons, Option.some.injEq] at hx
    exact Or.inl hx.symm
  | none =>
    rw [hfp] at hx
    simp only [fracRender, List.nil_append] at hx
    cases hep : p.ep with
    | none => rw [hep] at hx; simp [expRender] at hx
    | some g =>
      rw [hep] at hx
      simp only [expRender, List.head?_cons, Option.some.injEq] at hx
      subst hx
      rcases hem with h | h
      · exact Or.inr (Or.inl h)
      · exact Or.inr (Or.inr h)

theorem matchNum_rawLit {p : RawParts} {em : Char} {l : List Char} (h : IsRawLit p em l) :
    matchNum l = some ⟨p.sg, p.ip.dropWhile (fun c => c = '0'), p.fp.map rstripZeros, p.ep⟩ := by
  obtain ⟨hsg, hip, hfp, hep, hem, hl⟩ := h
  -- heads of the part after the integer digits are '.', 'e' or 'E'
  have hrest2 : ∀ x, (fracRender p.fp ++ expRender em p.ep).head? = some x →
      x = '.' ∨ x = 'e' ∨ x = 'E' := head?_fracExp p em hem
  have hrest2_not0 : ∀ x, (fracRender p.fp ++ expRender em p.ep).head? = some x →
      (fun c => decide (c = '0')) x = false := by
    intro x hx
    rcases hrest2 x hx with h | h | h <;> simp [h]
  have hrest2_notD : ∀ x, (fracRender p.fp ++ expRender em p.ep).head? = some x →
      isDigit x = false := by
    intro x hx
    rcases hrest2 x hx with h | h | h <;> simp [h, isDigit]
  -- Step A: the sign
  have hA : takeSign l = (p.sg, p.ip ++ (fracRender p.fp ++ expRender em p.ep)) := by
    rw [hl, List.append_assoc, List.append_assoc]
    apply takeSign_prepend hsg
    intro _ a ha
    cases hip' : p.ip with
    | cons c t =>
      rw [hip'] at ha
      simp only [List.cons_append, List.head?_cons, Option.some.injEq] at ha
      have hd : isDigit c = true := hip c (hip' ▸ List.mem_cons_self c t)
      rw [← ha]
      exact ⟨ne_of_isDigit hd (by decide), ne_of_isDigit hd (by decide)⟩
    | nil =>
      rw [hip'] at ha
      simp only [List.nil_append] at ha
      rcases hrest2 a ha with h | h | h <;> simp [h]
  -- Step B: leading zeros and the integer digits
  have hB : (p.ip ++ (fracRender p.fp ++ expRender em p.ep)).dropWhile (fun c => decide (c = '0'))
      = p.ip.dropWhile (fun c => decide (c = '0')) ++ (fracRender p.fp ++ expRender em p.ep) :=
    dropWhile_append_not_head hrest2_not0
  have hip' : ∀ c ∈ p.ip.dropWhile (fun c => decide (c = '0')), isDigit c = true := by
    intro c hc
    exact hip c ((List.dropWhile_sublist _).subset hc)
  have hBtake : (p.ip.dropWhile (fun c => decide (c = '0'))
        ++ (fracRender p.fp ++ expRender em p.ep)).takeWhile isDigit
      = p.ip.dropWhile (fun c => decide (c = '0')) :=
    takeWhile_append_not_head hip' hrest2_notD
  have hBdrop : (p.ip.dropWhile (fun c => decide (c = '0'))
        ++ (fracRender p.fp ++ expRender em p.ep)).dropWhile isDigit
      = fracRender p.fp ++ expRender em p.ep := by
    rw [dropWhile_append_all _ hip', dropWhile_head_not hrest2_notD]
  -- Step C: the fraction part
  have hexpHead : ∀ x, (expRender em p.ep).head? = some x → isDigit x = false := by
    intro x hx
    cases hep' : p.ep with
    | none => rw [hep'] at hx; simp [expRender] at hx
    | some g =>
      rw [hep'] at hx
      simp only [expRender, List.head?_cons, Option.some.injEq] at hx
      rcases hem with h | h <;> simp [← hx, h, isDigit]
  have hC : takeFrac (fracRender p.fp ++ expRender em p.ep)
      = (p.fp.map rstripZeros, expRender em p.ep) := by
    cases hfp' : p.fp with
    | none =>
      simp only [fracRender, List.nil_append, Option.map_none]
      apply takeFrac_not_dot
      intro a ha
      cases hep' : p.ep with
      | none => rw [hep'] at ha; simp [expRender] at ha
      | some g =>
        rw [hep'] at ha
        simp only [expRender, List.head?_cons, Option.some.injEq] at ha
        rw [← ha]
        rcases hem with h | h <;> rw [h] <;> decide
    | some f =>
      have hfd : ∀ c ∈ f, isDigit c = true := hfp f hfp'
      simp only [fracRender, List.cons_append, takeFrac_dot]
      rw [takeWhile_append_not_head hfd hexpHead,
        dropWhile_append_all _ hfd, dropWhile_head_not hexpHead]
      rfl
  -- Step D: the exponent part
  have hD : takeExp (expRender em p.ep) = some (p.ep, []) := by
    cases hep' : p.ep with
    | none => simp [expRender, takeExp_nil]
    | some g =>
      obtain ⟨es, ds, hes, hds, hdsd, hg⟩ := hep g hep'
      have hdhead : ∀ a, ds.head? = some a → a ≠ '+' ∧ a ≠ '-' := by
        intro a ha
        cases ds with
        | nil => simp at ha
        | cons c t =>
          simp only [List.head?_cons, Option.some.injEq] at ha
          have hd : isDigit c = true := hdsd c (List.mem_cons_self c t)
          rw [← ha]
          exact ⟨ne_of_isDigit hd (by decide), ne_of_isDigit hd (by decide)⟩
      have hts : takeSign g = (es, ds) := by
        rw [hg]; exact takeSign_prepend hes fun _ => hdhead
      simp only [expRender, takeExp, hem, if_pos hem, hts]
      rw [takeWhile_all hdsd, dropWhile_all hdsd]
      rw [if_neg hds, hg]
      simp
  -- assemble
  simp only [matchNum, hA, hB, hBtake, hBdrop, hC, hD]
  simp

/-- Parse-time stripping of leading integer zeros and trailing fraction zeros
does not change the denoted rational value. -/
theorem litVal_dropAndStrip (p : RawParts) :
    litVal ⟨p.sg, p.ip.dropWhile (fun c => c = '0'), p.fp.map rstripZeros, p.ep⟩ = rawVal p := by
  cases hfp : p.fp with
  | none =>
    simp only [litVal, rawVal, NumMatch.mantissa_frac, NumMatch.expNum, hfp,
      Option.map_none', Option.getD_none, digitsToNat_dropZeros]
  | some f =>
    simp only [litVal, rawVal, NumMatch.mantissa_frac, NumMatch.expNum, hfp,
      Option.map_some', Option.getD_some, digitsToNat_dropZeros]
    rw [digitsToNat_rstrip_div f]

/-! ### Shape predicates and the final replace normalizations -/

/-- Every character is a decimal digit. -/
def allDigits (l : List Char) : Prop := ∀ c ∈ l, isDigit c = true

/-- Some character is a nonzero decimal digit. -/
def hasNonzeroDigit (l : List Char) : Prop := ∃ c ∈ l, isDigit c = true ∧ c ≠ '0'

/-- Shape of a nonempty `returnValue`: either a pure digit run, or digits
around a single `'.'` (with nonempty integer and fraction sides), in both
cases containing a nonzero digit. -/
def GoodRaw (l : List Char) : Prop :=
  (allDigits l ∧ l ≠ [] ∧ hasNonzeroDigit l) ∨
  (∃ a f, l = a ++ '.' :: f ∧ allDigits a ∧ allDigits f ∧ a ≠ [] ∧ f ≠ [] ∧
    hasNonzeroDigit (a ++ f))

theorem hasNZ_cons0 {t : List Char} (h : hasNonzeroDigit ('0' :: t)) :
    hasNonzeroDigit t := by
  obtain ⟨x, hx, hxd, hxne⟩ := h
  rcases List.mem_cons.mp hx with h1 | h1
  · exact absurd h1 hxne
  · exact ⟨x, h1, hxd, hxne⟩

theorem stripLead_of_head_ne {l : List Char} (h : l.head? ≠ some '0') :
    stripLead l = l := by
  match l with
  | [] => rfl
  | [c] =>
    have hc : ¬c = '0' := by
      intro he
      exact h (by rw [he]; rfl)
    simp [stripLead, hc]
  | c1 :: c2 :: t =>
    have hc : ¬c1 = '0' := by
      intro he
      exact h (by rw [he]; rfl)
    simp [stripLead, hc]

theorem stripLead_cons0 {c : Char} (t : List Char) (h : c ≠ '.') :
    stripLead ('0' :: c :: t) = stripLead (c :: t) := by
  simp [stripLead, h]

theorem stripLead_zero_dot (f : List Char) :
    stripLead ('0' :: '.' :: f) = '0' :: '.' :: f := by
  simp [stripLead]

theorem stripLead_digits {l : List Char} (hd : allDigits l) (hnz : hasNonzeroDigit l) :
    stripLead l = l.dropWhile (fun c => c = '0') := by
  induction l with
  | nil => rfl
  | cons c t ih =>
    by_cases hc : c = '0'
    · subst hc
      cases t with
      | nil =>
        obtain ⟨x, hx, _, hxne⟩ := hnz
        simp only [List.mem_singleton] at hx
        exact absurd hx hxne
      | cons c2 t2 =>
        have hc2 : c2 ≠ '.' := ne_of_isDigit (hd c2 (by simp)) (by decide)
        rw [stripLead_cons0 t2 hc2]
        rw [ih (fun x hx => hd x (by simp [hx])) (hasNZ_cons0 hnz)]
        simp [List.dropWhile_cons]
    · rw [stripLead_of_head_ne (by simp [hc]), dropWhile_cons_neg t (by simp [hc])]

theorem stripLead_frac {a : List Char} (f : List Char) (ha : allDigits a) (hne : a ≠ []) :
    stripLead (a ++ '.' :: f)
      = (if a.dropWhile (fun c => c = '0') = [] then ['0']
         else a.dropWhile (fun c => c = '0')) ++ '.' :: f := by
  induction a with
  | nil => exact absurd rfl hne
  | cons c t ih =>
    by_cases hc : c = '0'
    · subst hc
      cases t with
      | nil =>
        simp only [List.cons_append, List.nil_append, stripLead_zero_dot]
        simp [List.dropWhile]
      | cons c2 t2 =>
        have hc2 : c2 ≠ '.' := ne_of_isDigit (ha c2 (by simp)) (by decide)
        have h1 : ('0' :: c2 :: t2) ++ '.' :: f = '0' :: c2 :: (t2 ++ '.' :: f) := by simp
        rw [h1, stripLead_cons0 _ hc2]
        have h2 : c2 :: (t2 ++ '.' :: f) = (c2 :: t2) ++ '.' :: f := by simp
        rw [h2, ih (fun x hx => ha x (by simp [hx])) (by simp)]
        simp [List.dropWhile_cons]
    · have hh : ((c :: t) ++ '.' :: f).head? ≠ some '0' := by simp [hc]
      rw [stripLead_of_head_ne hh, dropWhile_cons_neg t (by simp [hc])]
      simp

theorem stripTrail_cons_neg {c : Char} {t : List Char}
    (h : ¬(c = '.' ∧ t ≠ [] ∧ t.all isDigit ∧ t.getLast? = some '0')) :
    stripTrail (c :: t) = c :: stripTrail t := by
  simp only [stripTrail]
  rw [if_neg h]

theorem stripTrail_noDot {l : List Char} (h : ∀ c ∈ l, c ≠ '.') :
    stripTrail l = l := by
  induction l with
  | nil => rfl
  | cons c t ih =>
    rw [stripTrail_cons_neg (fun hcon => (h c (by simp)) hcon.1)]
    rw [ih fun x hx => h x (by simp [hx])]

theorem stripTrail_frac {a : List Char} {f : List Char}
    (hnd : ∀ c ∈ a, c ≠ '.') (hf : allDigits f) (hfne : f ≠ []) :
    stripTrail (a ++ '.' :: f)
      = if rstripZeros f = [] then a else a ++ '.' :: rstripZeros f := by
  induction a with
  | nil =>
    simp only [List.nil_append]
    by_cases hlast : f.getLast? = some '0'
    · simp only [stripTrail]
      split
      · rfl
      · rename_i hcon
        exact absurd ⟨trivial, hfne, List.all_eq_true.mpr hf, hlast⟩ hcon
    · have hself : rstripZeros f = f := rstripZeros_eq_self hlast
      rw [hself, if_neg hfne]
      rw [stripTrail_cons_neg (fun hcon => hlast hcon.2.2.2)]
      rw [stripTrail_noDot fun c hc => ne_of_isDigit (hf c hc) (by decide)]
  | cons c t ih =>
    have hc : c ≠ '.' := hnd c (by simp)
    have h1 : ((c :: t) ++ '.' :: f) = c :: (t ++ '.' :: f) := by simp
    rw [h1, stripTrail_cons_neg (fun hcon => hc hcon.1)]
    rw [ih fun x hx => hnd x (by simp [hx])]
    by_cases hz : rstripZeros f = []
    · rw [if_pos hz, if_pos hz]
    · rw [if_neg hz, if_neg hz]
      simp

/-- Shape of the unsigned output after both replace normalizations: a digit
run with no leading zero, or a fixed-point string whose integer side is `"0"`
or has no leading zero, and whose fraction side is nonempty with no trailing
zero. -/
def CanonCore (c : List Char) : Prop :=
  (allDigits c ∧ c ≠ [] ∧ c.head? ≠ some '0') ∨
  (∃ a f, c = a ++ '.' :: f ∧ allDigits a ∧ allDigits f ∧ f ≠ [] ∧
    f.getLast? ≠ some '0' ∧ (a = ['0'] ∨ (a ≠ [] ∧ a.head? ≠ some '0')))

theorem dropZeros_ne_nil {l : List Char} (hnz : hasNonzeroDigit l) :
    l.dropWhile (fun c => c = '0') ≠ [] := by
  intro hnil
  obtain ⟨x, hx, _, hxne⟩ := hnz
  exact hxne (by simpa using List.dropWhile_eq_nil_iff.mp hnil x hx)

theorem rstrip_nil_all_zero {f : List Char} (h : rstripZeros f = []) :
    ∀ c ∈ f, c = '0' := by
  intro c hc
  have := List.rdropWhile_eq_nil_iff.mp h c hc
  simpa using this

theorem strips_canon {rv : List Char} (h : GoodRaw rv) :
    CanonCore (stripTrail (stripLead rv)) := by
  rcases h with ⟨hd, hne, hnz⟩ | ⟨a, f, rfl, ha, hf, hane, hfne, hnz⟩
  · rw [stripLead_digits hd hnz]
    rw [stripTrail_noDot fun c hc =>
      ne_of_isDigit (hd c ((List.dropWhile_sublist _).subset hc)) (by decide)]
    refine Or.inl ⟨fun c hc => hd c ((List.dropWhile_sublist _).subset hc),
      dropZeros_ne_nil hnz, ?_⟩
    intro hh
    have := head?_dropWhile_not (fun c => c = '0') rv '0' hh
    simp at this
  · rw [stripLead_frac f ha hane]
    have hand : ∀ c ∈ (if a.dropWhile (fun c => c = '0') = [] then ['0']
        else a.dropWhile (fun c => c = '0')), c ≠ '.' := by
      intro c hc
      by_cases hz : a.dropWhile (fun c => c = '0') = []
      · rw [if_pos hz] at hc
        simp only [List.mem_singleton] at hc
        subst hc; decide
      · rw [if_neg hz] at hc
        exact ne_of_isDigit (ha c ((List.dropWhile_sublist _).subset hc)) (by decide)
    rw [stripTrail_frac hand hf hfne]
    by_cases hz : rstripZeros f = []
    · rw [if_pos hz]
      -- the fraction side is all zeros, so the nonzero digit is in `a`
      have hnza : hasNonzeroDigit a := by
        obtain ⟨x, hx, hxd, hxne⟩ := hnz
        rcases List.mem_append.mp hx with h1 | h1
        · exact ⟨x, h1, hxd, hxne⟩
        · exact absurd (rstrip_nil_all_zero hz x h1) hxne
      have hzne := dropZeros_ne_nil hnza
      rw [if_neg hzne]
      refine Or.inl ⟨fun c hc => ha c ((List.dropWhile_sublist _).subset hc), hzne, ?_⟩
      intro hh
      have := head?_dropWhile_not (fun c => c = '0') a '0' hh
      simp at this
    · rw [if_neg hz]
      refine Or.inr ⟨_, _, rfl, ?_, ?_, hz, rstripZeros_getLast hz, ?_⟩
      · intro c hc
        by_cases hz' : a.dropWhile (fun c => c = '0') = []
        · rw [if_pos hz'] at hc
          simp only [List.mem_singleton] at hc
          subst hc; decide
        · rw [if_neg hz'] at hc
          exact ha c ((List.dropWhile_sublist _).subset hc)
      · intro c hc
        exact hf c (rstripZeros_sub c hc)
      · by_cases hz' : a.dropWhile (fun c => c = '0') = []
        · rw [if_pos hz']
          exact Or.inl rfl
        · rw [if_neg hz']
          refine Or.inr ⟨hz', ?_⟩
          intro hh
          have := head?_dropWhile_not (fun c => c = '0') a '0' hh
          simp at this

/-! ### Values of fixed-point digit strings -/

theorem decVal_noDot {l : List Char} (h : ∀ c ∈ l, c ≠ '.') :
    decVal l = (digitsToNat l : ℚ) := by
  have hdrop : l.dropWhile (fun c => decide (c ≠ '.')) = [] :=
    dropWhile_all fun c hc => by simpa using h c hc
  simp only [decVal, hdrop]

theorem decVal_frac {a : List Char} (f : List Char) (ha : ∀ c ∈ a, c ≠ '.') :
    decVal (a ++ '.' :: f)
      = (digitsToNat a : ℚ) + (digitsToNat f : ℚ) / 10 ^ f.length := by
  have hhead : ∀ x, ('.' :: f).head? = some x → (fun c => decide (c ≠ '.')) x = false := by
    intro x hx
    simp only [List.head?_cons, Option.some.injEq] at hx
    simp [← hx]
  have hasat : ∀ c ∈ a, (fun c => decide (c ≠ '.')) c = true := fun c hc => by
    simpa using ha c hc
  have hdrop : (a ++ '.' :: f).dropWhile (fun c => decide (c ≠ '.')) = '.' :: f := by
    rw [dropWhile_append_all _ hasat, dropWhile_head_not hhead]
  have htake : (a ++ '.' :: f).takeWhile (fun c => decide (c ≠ '.')) = a :=
    takeWhile_append_not_head hasat hhead
  simp only [decVal, hdrop, htake]

theorem strips_decVal {rv : List Char} (h : GoodRaw rv) :
    decVal (stripTrail (stripLead rv)) = decVal rv := by
  rcases h with ⟨hd, hne, hnz⟩ | ⟨a, f, rfl, ha, hf, hane, hfne, hnz⟩
  · rw [stripLead_digits hd hnz]
    rw [stripTrail_noDot fun c hc =>
      ne_of_isDigit (hd c ((List.dropWhile_sublist _).subset hc)) (by decide)]
    rw [decVal_noDot fun c hc =>
      ne_of_isDigit (hd c ((List.dropWhile_sublist _).subset hc)) (by decide)]
    rw [decVal_noDot fun c hc => ne_of_isDigit (hd c hc) (by decide)]
    rw [digitsToNat_dropZeros]
  · have hadot : ∀ c ∈ a, c ≠ '.' := fun c hc => ne_of_isDigit (ha c hc) (by decide)
    rw [stripLead_frac f ha hane]
    have hand : ∀ c ∈ (if a.dropWhile (fun c => c = '0') = [] then ['0']
        else a.dropWhile (fun c => c = '0')), c ≠ '.' := by
      intro c hc
      by_cases hz : a.dropWhile (fun c => c = '0') = []
      · rw [if_pos hz] at hc
        simp only [List.mem_singleton] at hc
        subst hc; decide
      · rw [if_neg hz] at hc
        exact hadot c ((List.dropWhile_sublist _).subset hc)
    rw [stripTrail_frac hand hf hfne]
    have hdA : (digitsToNat (if a.dropWhile (fun c => c = '0') = [] then ['0']
        else a.dropWhile (fun c => c = '0')) : ℚ) = (digitsToNat a : ℚ) := by
      by_cases hz : a.dropWhile (fun c => c = '0') = []
      · rw [if_pos hz]
        have h0 : digitsToNat a = 0 := by
          rw [← digitsToNat_dropZeros a, hz, digitsToNat_nil]
        have h1 : digitsToNat ['0'] = 0 := by decide
        rw [h0, h1]
      · rw [if_neg hz, digitsToNat_dropZeros]
    by_cases hz : rstripZeros f = []
    · rw [if_pos hz]
      rw [decVal_noDot hand, decVal_frac f hadot]
      have h0 : digitsToNat f = 0 := digitsToNat_all_zero (rstrip_nil_all_zero hz)
      rw [hdA, h0]
      norm_num
    · rw [if_neg hz]
      rw [decVal_frac _ hand, decVal_frac f hadot]
      rw [hdA, digitsToNat_rstrip_div]

/-! ### Case analysis of the reconstruction branch -/

theorem expNum_of_not_active {m : NumMatch} (h : m.expActive = false) : m.expNum = 0 := by
  unfold NumMatch.expActive at h
  unfold NumMatch.expNum
  cases hg : m.expGroup with
  | none => rfl
  | some g =>
    rw [hg] at h
    simp only [decide_eq_false_iff_not, not_not] at h
    exact h

theorem reconstruct_pad {m : NumMatch} (hexp : m.expActive = true)
    (hms : m.mantissa_int ++ m.mantissa_frac ≠ [])
    (hk : (((m.mantissa_int ++ m.mantissa_frac).length : Int))
      ≤ (m.mantissa_int.length : Int) + m.expNum) :
    reconstruct m = (m.mantissa_int ++ m.mantissa_frac)
      ++ List.replicate (((m.mantissa_int.length : Int) + m.expNum
          - ((m.mantissa_int ++ m.mantissa_frac).length : Int)).toNat) '0' := by
  simp only [reconstruct]
  rw [if_pos hexp, if_pos (List.length_pos.mpr hms), if_pos hk]

theorem reconstruct_slice {m : NumMatch} (hexp : m.expActive = true)
    (hms : m.mantissa_int ++ m.mantissa_frac ≠ [])
    (hk1 : ¬((((m.mantissa_int ++ m.mantissa_frac).length : Int))
      ≤ (m.mantissa_int.length : Int) + m.expNum))
    (hk2 : 0 < (m.mantissa_int.length : Int) + m.expNum) :
    reconstruct m = (m.mantissa_int ++ m.mantissa_frac).take
        ((m.mantissa_int.length : Int) + m.expNum).toNat
      ++ '.' :: (m.mantissa_int ++ m.mantissa_frac).drop
        ((m.mantissa_int.length : Int) + m.expNum).toNat := by
  simp only [reconstruct]
  rw [if_pos hexp, if_pos (List.length_pos.mpr hms), if_neg hk1, if_pos hk2]

theorem reconstruct_small {m : NumMatch} (hexp : m.expActive = true)
    (hms : m.mantissa_int ++ m.mantissa_frac ≠ [])
    (hk1 : ¬((((m.mantissa_int ++ m.mantissa_frac).length : Int))
      ≤ (m.mantissa_int.length : Int) + m.expNum))
    (hk2 : ¬(0 < (m.mantissa_int.length : Int) + m.expNum)) :
    reconstruct m = '0' :: '.' ::
      (List.replicate (-((m.mantissa_int.length : Int) + m.expNum)).toNat '0'
        ++ (m.mantissa_int ++ m.mantissa_frac)) := by
  simp only [reconstruct]
  rw [if_pos hexp, if_pos (List.length_pos.mpr hms), if_neg hk1, if_neg hk2]

theorem reconstruct_fracCase {m : NumMatch} (hexp : m.expActive = false)
    (hfr : m.mantissa_frac ≠ []) :
    reconstruct m
      = (if m.mantissa_int = [] then ['0'] else m.mantissa_int) ++ '.' :: m.mantissa_frac := by
  simp only [reconstruct]
  rw [if_neg (by simp [hexp]), if_pos hfr]

theorem reconstruct_intCase {m : NumMatch} (hexp : m.expActive = false)
    (hfr : m.mantissa_frac = []) (hint : m.mantissa_int ≠ []) :
    reconstruct m = m.mantissa_int := by
  simp only [reconstruct]
  rw [if_neg (by simp [hexp]), if_neg (by simp [hfr]), if_pos hint]

theorem reconstruct_eq_nil_iff (m : NumMatch) :
    reconstruct m = [] ↔ m.mantissa_int ++ m.mantissa_frac = [] := by
  constructor
  · intro h
    by_contra hms
    by_cases hexp : m.expActive = true
    · by_cases hk1 : (((m.mantissa_int ++ m.mantissa_frac).length : Int))
          ≤ (m.mantissa_int.length : Int) + m.expNum
      · rw [reconstruct_pad hexp hms hk1] at h
        exact hms (List.append_eq_nil.mp h).1
      · by_cases hk2 : 0 < (m.mantissa_int.length : Int) + m.expNum
        · rw [reconstruct_slice hexp hms hk1 hk2] at h
          exact absurd (List.append_eq_nil.mp h).2 (by simp)
        · rw [reconstruct_small hexp hms hk1 hk2] at h
          simp at h
    · rw [Bool.not_eq_true] at hexp
      by_cases hfr : m.mantissa_frac ≠ []
      · rw [reconstruct_fracCase hexp hfr] at h
        exact absurd (List.append_eq_nil.mp h).2 (by simp)
      · rw [not_not] at hfr
        have hint : m.mantissa_int ≠ [] := by
          intro hi
          exact hms (by rw [hi, hfr]; rfl)
        rw [reconstruct_intCase hexp hfr hint] at h
        exact hint h
  · intro h
    obtain ⟨h1, h2⟩ := List.append_eq_nil.mp h
    by_cases hexp : m.expActive = true
    · simp only [reconstruct]
      rw [if_pos hexp, if_neg (by rw [h]; simp)]
    · simp only [reconstruct]
      rw [if_neg (by simp [hexp]), if_neg (by simp [h2]), if_neg (by simp [h1])]

theorem mantissa_hasNZ {l : List Char} {m : NumMatch} (h : matchNum l = some m)
    (hne : m.mantissa_int ++ m.mantissa_frac ≠ []) :
    hasNonzeroDigit (m.mantissa_int ++ m.mantissa_frac) := by
  obtain ⟨_, hid, hih, hfd, hfl⟩ := matchNum_fields h
  cases hint : m.mantissa_int with
  | cons c t =>
    refine ⟨c, by simp [hint], hid c (by simp [hint]), ?_⟩
    intro he
    exact hih (by rw [hint, he]; rfl)
  | nil =>
    have hfne : m.mantissa_frac ≠ [] := by
      intro hf
      exact hne (by rw [hint, hf]; rfl)
    refine ⟨m.mantissa_frac.getLast hfne,
      List.mem_append_right _ (List.getLast_mem hfne),
      hfd _ (List.getLast_mem hfne), ?_⟩
    intro he
    exact hfl (by rw [List.getLast?_eq_getLast _ hfne, he])

theorem reconstruct_good {l : List Char} {m : NumMatch} (h : matchNum l = some m)
    (hne : reconstruct m ≠ []) : GoodRaw (reconstruct m) := by
  obtain ⟨_, hid, hih, hfd, hfl⟩ := matchNum_fields h
  have hms : m.mantissa_int ++ m.mantissa_frac ≠ [] := by
    intro hm; exact hne ((reconstruct_eq_nil_iff m).mpr hm)
  have hmsd : allDigits (m.mantissa_int ++ m.mantissa_frac) := by
    intro c hc
    rcases List.mem_append.mp hc with h1 | h1
    · exact hid c h1
    · exact hfd c h1
  have hnz := mantissa_hasNZ h hms
  by_cases hexp : m.expActive = true
  · by_cases hk1 : (((m.mantissa_int ++ m.mantissa_frac).length : Int))
        ≤ (m.mantissa_int.length : Int) + m.expNum
    · rw [reconstruct_pad hexp hms hk1]
      refine Or.inl ⟨?_, fun hcon => hms (List.append_eq_nil.mp hcon).1, ?_⟩
      · intro c hc
        rcases List.mem_append.mp hc with h1 | h1
        · exact hmsd c h1
        · rw [List.eq_of_mem_replicate h1]; decide
      · obtain ⟨x, hx, hxd, hxne⟩ := hnz
        exact ⟨x, List.mem_append_left _ hx, hxd, hxne⟩
    · by_cases hk2 : 0 < (m.mantissa_int.length : Int) + m.expNum
      · rw [reconstruct_slice hexp hms hk1 hk2]
        refine Or.inr ⟨_, _, rfl, ?_, ?_, ?_, ?_, ?_⟩
        · intro c hc; exact hmsd c (List.take_subset _ _ hc)
        · intro c hc; exact hmsd c (List.drop_subset _ _ hc)
        · apply List.ne_nil_of_length_pos
          rw [List.length_take]
          omega
        · apply List.ne_nil_of_length_pos
          rw [List.length_drop]
          omega
        · rw [List.take_append_drop]; exact hnz
      · rw [reconstruct_small hexp hms hk1 hk2]
        have hsh : ('0' :: '.' ::
            (List.replicate (-((m.mantissa_int.length : Int) + m.expNum)).toNat '0'
              ++ (m.mantissa_int ++ m.mantissa_frac)))
            = ['0'] ++ '.' ::
              (List.replicate (-((m.mantissa_int.length : Int) + m.expNum)).toNat '0'
                ++ (m.mantissa_int ++ m.mantissa_frac)) := rfl
        rw [hsh]
        refine Or.inr ⟨_, _, rfl, ?_, ?_, by simp, by simp [hms], ?_⟩
        · intro c hc
          simp only [List.mem_singleton] at hc
          subst hc; decide
        · intro c hc
          rcases List.mem_append.mp hc with h1 | h1
          · rw [List.eq_of_mem_replicate h1]; decide
          · exact hmsd c h1
        · obtain ⟨x, hx, hxd, hxne⟩ := hnz
          exact ⟨x, by simp [hx], hxd, hxne⟩
  · rw [Bool.not_eq_true] at hexp
    by_cases hfr : m.mantissa_frac ≠ []
    · rw [reconstruct_fracCase hexp hfr]
      refine Or.inr ⟨_, _, rfl, ?_, hfd, ?_, hfr, ?_⟩
      · intro c hc
        by_cases hmi : m.mantissa_int = []
        · rw [if_pos hmi] at hc
          simp only [List.mem_singleton] at hc
          subst hc; decide
        · rw [if_neg hmi] at hc
          exact hid c hc
      · by_cases hmi : m.mantissa_int = []
        · rw [if_pos hmi]; simp
        · rw [if_neg hmi]; exact hmi
      · refine ⟨m.mantissa_frac.getLast hfr, ?_,
          hfd _ (List.getLast_mem hfr), ?_⟩
        · exact List.mem_append_right _ (List.getLast_mem hfr)
        · intro he
          exact hfl (by rw [List.getLast?_eq_getLast _ hfr, he])
    · rw [not_not] at hfr
      have hint : m.mantissa_int ≠ [] := by
        intro hi
        exact hms (by rw [hi, hfr]; rfl)
      rw [reconstruct_intCase hexp hfr hint]
      rw [hfr, List.append_nil] at hmsd hnz
      exact Or.inl ⟨hmsd, hint, hnz⟩

theorem mantissa_split (a b : List Char) :
    (digitsToNat (a ++ b) : ℚ)
      = (digitsToNat a : ℚ) * 10 ^ b.length + (digitsToNat b : ℚ) := by
  rw [digitsToNat_append]
  push_cast
  ring

/-- The literal value in terms of the flat mantissa digit run. -/
theorem litVal_eq_mantissa (m : NumMatch) :
    litVal m = (if m.sign = ['-'] then (-1 : ℚ) else 1)
      * (digitsToNat (m.mantissa_int ++ m.mantissa_frac) : ℚ)
      * (10 : ℚ) ^ (m.expNum - (m.mantissa_frac.length : Int)) := by
  unfold litVal
  have h10 : (10 : ℚ) ≠ 0 := by norm_num
  rw [mantissa_split, zpow_sub₀ h10, zpow_natCast]
  have hAB : (digitsToNat m.mantissa_int : ℚ)
      + (digitsToNat m.mantissa_frac : ℚ) / 10 ^ m.mantissa_frac.length
      = ((digitsToNat m.mantissa_int : ℚ) * 10 ^ m.mantissa_frac.length
          + (digitsToNat m.mantissa_frac : ℚ)) / 10 ^ m.mantissa_frac.length := by
    field_simp
  rw [hAB]
  ring

theorem decVal_reconstruct {l : List Char} {m : NumMatch} (h : matchNum l = some m)
    (hne : reconstruct m ≠ []) :
    decVal (reconstruct m)
      = (digitsToNat (m.mantissa_int ++ m.mantissa_frac) : ℚ)
        * (10 : ℚ) ^ (m.expNum - (m.mantissa_frac.length : Int)) := by
  obtain ⟨_, hid, hih, hfd, hfl⟩ := matchNum_fields h
  have hms : m.mantissa_int ++ m.mantissa_frac ≠ [] := by
    intro hm; exact hne ((reconstruct_eq_nil_iff m).mpr hm)
  have hmsd : allDigits (m.mantissa_int ++ m.mantissa_frac) := by
    intro c hc
    rcases List.mem_append.mp hc with h1 | h1
    · exact hid c h1
    · exact hfd c h1
  have hL : (m.mantissa_int ++ m.mantissa_frac).length
      = m.mantissa_int.length + m.mantissa_frac.length := List.length_append _ _
  have h10 : (10 : ℚ) ≠ 0 := by norm_num
  by_cases hexp : m.expActive = true
  · by_cases hk1 : (((m.mantissa_int ++ m.mantissa_frac).length : Int))
        ≤ (m.mantissa_int.length : Int) + m.expNum
    · rw [reconstruct_pad hexp hms hk1]
      have hnd : ∀ c ∈ (m.mantissa_int ++ m.mantissa_frac)
          ++ List.replicate (((m.mantissa_int.length : Int) + m.expNum
            - ((m.mantissa_int ++ m.mantissa_frac).length : Int)).toNat) '0', c ≠ '.' := by
        intro c hc
        rcases List.mem_append.mp hc with h1 | h1
        · exact ne_of_isDigit (hmsd c h1) (by decide)
        · rw [List.eq_of_mem_replicate h1]; decide
      rw [decVal_noDot hnd, digitsToNat_append, digitsToNat_replicate_zero,
        List.length_replicate]
      push_cast
      rw [add_zero]
      congr 1
      rw [← zpow_natCast (10 : ℚ)]
      congr 1
      omega
    · by_cases hk2 : 0 < (m.mantissa_int.length : Int) + m.expNum
      · rw [reconstruct_slice hexp hms hk1 hk2]
        rw [decVal_frac _ fun c hc =>
          ne_of_isDigit (hmsd c (List.take_subset _ _ hc)) (by decide)]
        have hsplit : (digitsToNat (m.mantissa_int ++ m.mantissa_frac) : ℚ)
            = (digitsToNat ((m.mantissa_int ++ m.mantissa_frac).take
                (((m.mantissa_int.length : Int) + m.expNum).toNat)) : ℚ)
              * 10 ^ ((m.mantissa_int ++ m.mantissa_frac).drop
                (((m.mantissa_int.length : Int) + m.expNum).toNat)).length
              + (digitsToNat ((m.mantissa_int ++ m.mantissa_frac).drop
                (((m.mantissa_int.length : Int) + m.expNum).toNat)) : ℚ) := by
          conv_lhs => rw [← List.take_append_drop
            (((m.mantissa_int.length : Int) + m.expNum).toNat)
            (m.mantissa_int ++ m.mantissa_frac)]
          rw [mantissa_split]
        have hlen : ((((m.mantissa_int ++ m.mantissa_frac).drop
            (((m.mantissa_int.length : Int) + m.expNum).toNat)).length : ℤ))
            = (m.mantissa_frac.length : ℤ) - m.expNum := by
          rw [List.length_drop]
          omega
        rw [show m.expNum - (m.mantissa_frac.length : Int)
            = -((((m.mantissa_int ++ m.mantissa_frac).drop
              (((m.mantissa_int.length : Int) + m.expNum).toNat)).length : ℤ)) by
          rw [hlen]; ring]
        rw [zpow_neg, zpow_natCast, hsplit]
        have hD0 : ((10 : ℚ) ^ ((m.mantissa_int ++ m.mantissa_frac).drop
            (((m.mantissa_int.length : Int) + m.expNum).toNat)).length) ≠ 0 := by
          positivity
        field_simp
      · rw [reconstruct_small hexp hms hk1 hk2]
        have hsh : ('0' :: '.' ::
            (List.replicate (-((m.mantissa_int.length : Int) + m.expNum)).toNat '0'
              ++ (m.mantissa_int ++ m.mantissa_frac)))
            = ['0'] ++ '.' ::
              (List.replicate (-((m.mantissa_int.length : Int) + m.expNum)).toNat '0'
                ++ (m.mantissa_int ++ m.mantissa_frac)) := rfl
        rw [hsh]
        have h0dot : ∀ c ∈ (['0'] : List Char), c ≠ '.' := by
          intro c hc
          simp only [List.mem_singleton] at hc
          subst hc
          decide
        rw [decVal_frac _ h0dot]
        simp only [digitsToNat_append, digitsToNat_replicate_zero, List.length_append,
          List.length_replicate, zero_mul, zero_add,
          show digitsToNat ['0'] = 0 from by decide]
        push_cast
        rw [zero_add]
        rw [show m.expNum - (m.mantissa_frac.length : Int)
            = -((((-((m.mantissa_int.length : Int) + m.expNum)).toNat
              + (m.mantissa_int.length + m.mantissa_frac.length)) : ℕ) : ℤ) by omega]
        rw [zpow_neg, zpow_natCast, div_eq_mul_inv]
  · rw [Bool.not_eq_true] at hexp
    have he0 : m.expNum = 0 := expNum_of_not_active hexp
    by_cases hfr : m.mantissa_frac ≠ []
    · rw [reconstruct_fracCase hexp hfr]
      rw [decVal_frac _ (by
        intro c hc
        by_cases hmi : m.mantissa_int = []
        · rw [if_pos hmi] at hc
          simp only [List.mem_singleton] at hc
          subst hc; decide
        · rw [if_neg hmi] at hc
          exact ne_of_isDigit (hid c hc) (by decide))]
      have hdA : (digitsToNat (if m.mantissa_int = [] then ['0'] else m.mantissa_int) : ℚ)
          = (digitsToNat m.mantissa_int : ℚ) := by
        by_cases hmi : m.mantissa_int = []
        · rw [if_pos hmi, hmi, digitsToNat_nil, show digitsToNat ['0'] = 0 from by decide]
        · rw [if_neg hmi]
      rw [hdA, mantissa_split, he0, zero_sub, zpow_neg, zpow_natCast]
      have hfl0 : ((10 : ℚ) ^ m.mantissa_frac.length) ≠ 0 := by positivity
      field_simp
    · rw [not_not] at hfr
      have hint : m.mantissa_int ≠ [] := by
        intro hi
        exact hms (by rw [hi, hfr]; rfl)
      rw [reconstruct_intCase hexp hfr hint]
      rw [decVal_noDot fun c hc => ne_of_isDigit (hid c hc) (by decide)]
      rw [hfr, he0, List.append_nil]
      norm_num

/-! ### Reparsing canonical outputs -/

theorem litVal_intForm (sg mint : List Char) :
    litVal ⟨sg, mint, none, none⟩
      = (if sg = ['-'] then (-1 : ℚ) else 1) * (digitsToNat mint : ℚ) := by
  simp [litVal, NumMatch.mantissa_frac, NumMatch.expNum, digitsToNat_nil]

theorem litVal_fracForm (sg mint f : List Char) :
    litVal ⟨sg, mint, some f, none⟩
      = (if sg = ['-'] then (-1 : ℚ) else 1)
        * ((digitsToNat mint : ℚ) + (digitsToNat f : ℚ) / 10 ^ f.length) := by
  simp [litVal, NumMatch.mantissa_frac, NumMatch.expNum]

theorem sign_prefix_eq {sgn : List Char} (hs : sgn = [] ∨ sgn = ['-']) :
    (if sgn = ['-'] then ['-'] else ([] : List Char)) = sgn := by
  rcases hs with rfl | rfl <;> simp

/-- A canonical unsigned core, optionally preceded by `'-'`, parses back to a
match that the conversion maps to the same string with the same value. -/
theorem matchNum_canon {sgn c : List Char} (hs : sgn = [] ∨ sgn = ['-'])
    (hc : CanonCore c) :
    ∃ m', matchNum (sgn ++ c) = some m' ∧ finalize m' = sgn ++ c ∧
      litVal m' = (if sgn = ['-'] then (-1 : ℚ) else 1) * decVal c := by
  have hsSign : IsSign sgn := by
    rcases hs with rfl | rfl
    · exact Or.inl rfl
    · exact Or.inr (Or.inr rfl)
  rcases hc with ⟨hcd, hcne, hch⟩ | ⟨a, f, rfl, had, hfd, hfne, hflast, hacond⟩
  · -- integer form
    refine ⟨⟨sgn, c, none, none⟩, ?_, ?_, ?_⟩
    · have hA : takeSign (sgn ++ c) = (sgn, c) := by
        apply takeSign_prepend hsSign
        intro _ x hx
        cases c with
        | nil => simp at hx
        | cons c0 t =>
          simp only [List.head?_cons, Option.some.injEq] at hx
          have hd := hcd c0 (by simp)
          rw [← hx]
          exact ⟨ne_of_isDigit hd (by decide), ne_of_isDigit hd (by decide)⟩
      have hB : c.dropWhile (fun c => c = '0') = c := by
        apply dropWhile_head_not
        intro x hx
        simp only [decide_eq_false_iff_not]
        intro he
        exact hch (by rw [hx, he])
      have hC : c.takeWhile isDigit = c := takeWhile_all hcd
      have hD : c.dropWhile isDigit = [] := dropWhile_all hcd
      simp only [matchNum, hA, hB, hC, hD]
      rfl
    · have hrv : reconstruct ⟨sgn, c, none, none⟩ = c :=
        reconstruct_intCase rfl rfl hcne
      simp only [finalize, hrv, if_neg hcne]
      rw [stripLead_of_head_ne hch,
        stripTrail_noDot fun x hx => ne_of_isDigit (hcd x hx) (by decide),
        sign_prefix_eq hs]
    · rw [litVal_intForm, decVal_noDot fun x hx => ne_of_isDigit (hcd x hx) (by decide)]
  · -- fixed-point form
    have hfd' : f.all isDigit = true := List.all_eq_true.mpr hfd
    have hfself : rstripZeros f = f := rstripZeros_eq_self hflast
    have hCfrac : takeFrac ('.' :: f) = (some f, []) := by
      rw [takeFrac_dot, takeWhile_all hfd, dropWhile_all hfd, hfself]
    rcases hacond with rfl | ⟨hane, hah⟩
    · -- integer side is exactly "0"
      have h0d : ∀ x ∈ (['0'] : List Char), x ≠ '.' := by
        intro x hx
        simp only [List.mem_singleton] at hx
        subst hx
        decide
      refine ⟨⟨sgn, [], some f, none⟩, ?_, ?_, ?_⟩
      · have hA : takeSign (sgn ++ (['0'] ++ '.' :: f)) = (sgn, ['0'] ++ '.' :: f) := by
          apply takeSign_prepend hsSign
          intro _ x hx
          simp only [List.singleton_append, List.head?_cons, Option.some.injEq] at hx
          rw [← hx]
          exact ⟨by decide, by decide⟩
        have hdotf : ∀ x, ('.' :: f).head? = some x →
            (fun c => decide (c = '0')) x = false := by
          intro x hx
          simp only [List.head?_cons, Option.some.injEq] at hx
          simp [← hx]
        have hB : (['0'] ++ '.' :: f).dropWhile (fun c => c = '0') = '.' :: f := by
          rw [dropWhile_append_not_head hdotf,
            show (['0'] : List Char).dropWhile (fun c => c = '0') = [] from rfl,
            List.nil_append]
        have hC : ('.' :: f).takeWhile isDigit = [] := takeWhile_cons_neg f (by decide)
        have hD : ('.' :: f).dropWhile isDigit = '.' :: f := dropWhile_cons_neg f (by decide)
        simp only [matchNum, hA, hB, hC, hD, hCfrac]
        rfl
      · have hfr : (⟨sgn, [], some f, none⟩ : NumMatch).mantissa_frac ≠ [] := by
          simpa [NumMatch.mantissa_frac] using hfne
        have hexp0 : (⟨sgn, [], some f, none⟩ : NumMatch).expActive = false := rfl
        have hrv : reconstruct ⟨sgn, [], some f, none⟩ = ['0'] ++ '.' :: f := by
          rw [reconstruct_fracCase hexp0 hfr]
          rfl
        have hrvne : (['0'] ++ '.' :: f) ≠ [] := by simp
        simp only [finalize, hrv]
        rw [if_neg hrvne]
        have hsl : stripLead (['0'] ++ '.' :: f) = ['0'] ++ '.' :: f := stripLead_zero_dot f
        rw [hsl, stripTrail_frac h0d hfd hfne]
        have hz : rstripZeros f ≠ [] := by rw [hfself]; exact hfne
        rw [if_neg hz, hfself, sign_prefix_eq hs]
      · rw [litVal_fracForm, decVal_frac f h0d]
        rw [digitsToNat_nil, show digitsToNat ['0'] = 0 from by decide]
    · -- integer side with nonzero leading digit
      have hadot : ∀ x ∈ a, x ≠ '.' := fun x hx => ne_of_isDigit (had x hx) (by decide)
      have hheadA : ∀ x, (a ++ '.' :: f).head? = some x → a.head? = some x := by
        intro x hx
        cases a with
        | nil => exact absurd rfl hane
        | cons a0 t =>
          simp only [List.cons_append, List.head?_cons, Option.some.injEq] at hx
          rw [List.head?_cons, hx]
      refine ⟨⟨sgn, a, some f, none⟩, ?_, ?_, ?_⟩
      · have hA : takeSign (sgn ++ (a ++ '.' :: f)) = (sgn, a ++ '.' :: f) := by
          apply takeSign_prepend hsSign
          intro _ x hx
          cases a with
          | nil => exact absurd rfl hane
          | cons a0 t =>
            simp only [List.cons_append, List.head?_cons, Option.some.injEq] at hx
            have hd := had a0 (by simp)
            rw [← hx]
            exact ⟨ne_of_isDigit hd (by decide), ne_of_isDigit hd (by decide)⟩
        have hB : (a ++ '.' :: f).dropWhile (fun c => c = '0') = a ++ '.' :: f := by
          apply dropWhile_head_not
          intro x hx
          have hax := hheadA x hx
          simp only [decide_eq_false_iff_not]
          intro he
          exact hah (by rw [hax, he])
        have hC : (a ++ '.' :: f).takeWhile isDigit = a :=
          takeWhile_append_not_head had (by
            intro x hx
            simp only [List.head?_cons, Option.some.injEq] at hx
            rw [← hx]; decide)
        have hD : (a ++ '.' :: f).dropWhile isDigit = '.' :: f := by
          rw [dropWhile_append_all _ had]
          exact dropWhile_cons_neg f (by decide)
        simp only [matchNum, hA, hB, hC, hD, hCfrac]
        rfl
      · have hfr : (⟨sgn, a, some f, none⟩ : NumMatch).mantissa_frac ≠ [] := by
          simpa [NumMatch.mantissa_frac] using hfne
        have hexp0 : (⟨sgn, a, some f, none⟩ : NumMatch).expActive = false := rfl
        have hrv : reconstruct ⟨sgn, a, some f, none⟩ = a ++ '.' :: f := by
          rw [reconstruct_fracCase hexp0 hfr]
          simp only [NumMatch.mantissa_frac]
          rw [if_neg hane]
          rfl
        have hrvne : (a ++ '.' :: f) ≠ [] := by simp
        simp only [finalize, hrv]
        rw [if_neg hrvne]
        have hhne : (a ++ '.' :: f).head? ≠ some '0' := by
          intro hx
          exact hah (hheadA '0' hx)
        rw [stripLead_of_head_ne hhne, stripTrail_frac hadot hfd hfne]
        have hz : rstripZeros f ≠ [] := by rw [hfself]; exact hfne
        rw [if_neg hz, hfself, sign_prefix_eq hs]
      · rw [litVal_fracForm, decVal_frac f hadot]

/-! ### The conversion output: reparse identity and canonical shape -/

theorem finalize_of_nil {m : NumMatch} (hrv : reconstruct m = []) :
    finalize m = ['0'] := by
  simp only [finalize]
  rw [if_pos hrv]

theorem finalize_of_ne_nil {m : NumMatch} (hrv : reconstruct m ≠ []) :
    finalize m = (if m.sign = ['-'] then ['-'] else [])
      ++ stripTrail (stripLead (reconstruct m)) := by
  simp only [finalize]
  rw [if_neg hrv]

theorem litVal_zero_of_empty_mantissa {m : NumMatch}
    (hms : m.mantissa_int ++ m.mantissa_frac = []) : litVal m = 0 := by
  rw [litVal_eq_mantissa, hms, digitsToNat_nil]
  simp

/-- The output of a successful conversion parses back to a match with the same
value, and converting it again returns it unchanged. -/
theorem finalize_reparse {l : List Char} {m : NumMatch} (h : matchNum l = some m) :
    ∃ m', matchNum (finalize m) = some m' ∧ finalize m' = finalize m ∧
      litVal m' = litVal m := by
  by_cases hrv : reconstruct m = []
  · rw [finalize_of_nil hrv]
    refine ⟨⟨[], [], none, none⟩, rfl, rfl, ?_⟩
    rw [litVal_intForm,
      litVal_zero_of_empty_mantissa ((reconstruct_eq_nil_iff m).mp hrv),
      digitsToNat_nil]
    simp
  · have hgood := reconstruct_good h hrv
    have hcanon := strips_canon hgood
    have hs : (if m.sign = ['-'] then ['-'] else ([] : List Char)) = []
        ∨ (if m.sign = ['-'] then ['-'] else ([] : List Char)) = ['-'] := by
      by_cases hsg : m.sign = ['-']
      · rw [if_pos hsg]; exact Or.inr rfl
      · rw [if_neg hsg]; exact Or.inl rfl
    obtain ⟨m', hm1, hm2, hm3⟩ := matchNum_canon hs hcanon
    rw [finalize_of_ne_nil hrv]
    refine ⟨m', hm1, hm2, ?_⟩
    have hfac : (if (if m.sign = ['-'] then ['-'] else ([] : List Char)) = ['-']
        then (-1 : ℚ) else 1) = (if m.sign = ['-'] then (-1 : ℚ) else 1) := by
      by_cases hsg : m.sign = ['-']
      · rw [if_pos hsg, if_pos rfl, if_pos hsg]
      · rw [if_neg hsg, if_neg (by simp), if_neg hsg]
    rw [hm3, hfac, strips_decVal hgood, decVal_reconstruct h hrv, litVal_eq_mantissa]
    ring

/-- Output format of the conversion (unsigned part, as claimed by the spec):
no exponent marker, at most one decimal point, a leading `'0'` only as the
whole output or directly before the decimal point, and no trailing zero after
a decimal point.  The unsigned core of an output starting with `'-'` is
forced to be its tail: an output that is not `'-'`-led must itself satisfy
the core conditions (its head is required not to be `'-'`), and a `'-'`-led
output determines the core uniquely as everything after the sign. -/
def OutputCanonical (l : List Char) : Prop :=
  (∀ c ∈ l, c ≠ 'e' ∧ c ≠ 'E') ∧
  l.count '.' ≤ 1 ∧
  ∃ core, ((l = core ∧ core.head? ≠ some '-') ∨ l = '-' :: core) ∧
    (∀ c rest, core = '0' :: c :: rest → c = '.') ∧
    ('.' ∈ core → core.getLast? ≠ some '0')

theorem isDigit_not_eE {c : Char} (h : isDigit c = true) : c ≠ 'e' ∧ c ≠ 'E' :=
  ⟨ne_of_isDigit h (by decide), ne_of_isDigit h (by decide)⟩

theorem canonCore_props {c : List Char} (hc : CanonCore c) :
    (∀ x ∈ c, x ≠ 'e' ∧ x ≠ 'E') ∧
    c.count '.' ≤ 1 ∧
    (∀ x rest, c = '0' :: x :: rest → x = '.') ∧
    ('.' ∈ c → c.getLast? ≠ some '0') := by
  rcases hc with ⟨hcd, hcne, hch⟩ | ⟨a, f, rfl, had, hfd, hfne, hflast, hacond⟩
  · refine ⟨fun x hx => isDigit_not_eE (hcd x hx), ?_, ?_, ?_⟩
    · have : '.' ∉ c := by
        intro hmem
        exact absurd (hcd '.' hmem) (by decide)
      rw [List.count_eq_zero.mpr this]
      norm_num
    · intro x rest hcr
      exact absurd (by rw [hcr]; rfl) hch
    · intro hmem
      exact absurd (hcd '.' hmem) (by decide)
  · have hadot : '.' ∉ a := by
      intro hmem
      exact absurd (had '.' hmem) (by decide)
    have hfdot : '.' ∉ f := by
      intro hmem
      exact absurd (hfd '.' hmem) (by decide)
    refine ⟨?_, ?_, ?_, ?_⟩
    · intro x hx
      rcases List.mem_append.mp hx with h1 | h1
      · exact isDigit_not_eE (had x h1)
      · rcases List.mem_cons.mp h1 with h2 | h2
        · subst h2; exact ⟨by decide, by decide⟩
        · exact isDigit_not_eE (hfd x h2)
    · rw [List.count_append, List.count_cons]
      rw [List.count_eq_zero.mpr hadot, List.count_eq_zero.mpr hfdot]
      simp
    · intro x rest hcr
      rcases hacond with rfl | ⟨hane, hah⟩
      · simp only [List.singleton_append, List.cons.injEq] at hcr
        exact hcr.2.1.symm
      · cases a with
        | nil => exact absurd rfl hane
        | cons a0 t =>
          simp only [List.cons_append, List.cons.injEq] at hcr
          exact absurd (by rw [List.head?_cons, hcr.1]) hah
    · intro _
      have hsh : a ++ '.' :: f = (a ++ ['.']) ++ f := by simp
      rw [hsh, List.getLast?_append_of_ne_nil _ hfne]
      exact hflast

theorem canonCore_head_not_minus {c : List Char} (hc : CanonCore c) :
    c.head? ≠ some '-' := by
  rcases hc with ⟨hcd, hcne, _⟩ | ⟨a, f, rfl, had, _, _, _, hacond⟩
  · cases c with
    | nil => simp
    | cons c0 t =>
      intro hx
      simp only [List.head?_cons, Option.some.injEq] at hx
      exact absurd (hcd c0 (by simp)) (by rw [hx]; decide)
  · rcases hacond with rfl | ⟨hane, hah⟩
    · intro hx
      simp at hx
    · cases a with
      | nil => exact absurd rfl hane
      | cons a0 t =>
        intro hx
        simp only [List.cons_append, List.head?_cons, Option.some.injEq] at hx
        exact absurd (had a0 (by simp)) (by rw [hx]; decide)

/-- Every successful conversion produces a canonically-shaped output. -/
theorem finalize_canonical {l : List Char} {m : NumMatch} (h : matchNum l = some m) :
    OutputCanonical (finalize m) := by
  by_cases hrv : reconstruct m = []
  · rw [finalize_of_nil hrv]
    refine ⟨by decide, by decide, ['0'], Or.inl ⟨rfl, by decide⟩, ?_, by decide⟩
    intro x rest hcr
    simp at hcr
  · have hcanon := strips_canon (reconstruct_good h hrv)
    obtain ⟨heE, hcount, hlead, htrail⟩ := canonCore_props hcanon
    rw [finalize_of_ne_nil hrv]
    by_cases hsg : m.sign = ['-']
    · rw [if_pos hsg]
      refine ⟨?_, ?_, stripTrail (stripLead (reconstruct m)), Or.inr rfl, hlead, htrail⟩
      · intro x hx
        rcases List.mem_append.mp hx with h1 | h1
        · simp only [List.mem_singleton] at h1
          subst h1; exact ⟨by decide, by decide⟩
        · exact heE x h1
      · rw [List.count_append]
        have hdm : ('.' : Char) ∉ (['-'] : List Char) := by decide
        rw [List.count_eq_zero.mpr hdm]
        simpa using hcount
    · rw [if_neg hsg, List.nil_append]
      exact ⟨heE, hcount, _, Or.inl ⟨rfl, canonCore_head_not_minus hcanon⟩, hlead, htrail⟩

/-! ### The grammar alphabet -/

/-- Characters that can appear in a string matched by the regex. -/
def inAlphabet (c : Char) : Bool :=
  c = '+' || c = '-' || c = '.' || c = 'e' || c = 'E' || isDigit c

/-- JavaScript whitespace characters (the ASCII ones). -/
def isWhitespaceChar (c : Char) : Bool :=
  c = ' ' || c = '\t' || c = '\n' || c = '\r' || c = '\x0b' || c = '\x0c'

theorem inAlphabet_of_isDigit {c : Char} (h : isDigit c = true) :
    inAlphabet c = true := by
  simp [inAlphabet, h]

theorem ws_not_alphabet {c : Char} (hw : isWhitespaceChar c = true) :
    inAlphabet c = false := by
  simp only [isWhitespaceChar, Bool.or_eq_true, decide_eq_true_eq] at hw
  rcases hw with ((((h | h) | h) | h) | h) | h <;> subst h <;> decide

theorem takeExp_mem {l4 : List Char} {ex : Option (List Char)}
    (h : takeExp l4 = some (ex, [])) : ∀ c ∈ l4, inAlphabet c = true := by
  rcases takeExp_inv h with ⟨rfl, _⟩ | ⟨em, es, ds, hem, hes, _, hdsd, rfl, _⟩
  · intro c hc; simp at hc
  · intro c hc
    rcases List.mem_cons.mp hc with h1 | h1
    · subst h1
      rcases hem with h2 | h2 <;> rw [h2] <;> decide
    · rcases List.mem_append.mp h1 with h2 | h2
      · rcases hes with h3 | h3 | h3
        · rw [h3] at h2; exact absurd h2 (by simp)
        · rw [h3] at h2
          simp only [List.mem_singleton] at h2
          subst h2; decide
        · rw [h3] at h2
          simp only [List.mem_singleton] at h2
          subst h2; decide
      · exact inAlphabet_of_isDigit (hdsd c h2)

/-- Every string accepted by the regex consists only of grammar characters. -/
theorem matchNum_alphabet {l : List Char} {m : NumMatch} (h : matchNum l = some m) :
    ∀ c ∈ l, inAlphabet c = true := by
  obtain ⟨_, _, _, hexp⟩ := matchNum_inv h
  intro c hc
  rw [← takeSign_append l] at hc
  rcases List.mem_append.mp hc with hc | hc
  · rcases takeSign_isSign l with h1 | h1 | h1
    · rw [h1] at hc; exact absurd hc (by simp)
    · rw [h1] at hc
      simp only [List.mem_singleton] at hc
      subst hc; decide
    · rw [h1] at hc
      simp only [List.mem_singleton] at hc
      subst hc; decide
  · rw [← List.takeWhile_append_dropWhile (fun c => decide (c = '0')) (takeSign l).2] at hc
    rcases List.mem_append.mp hc with hc | hc
    · have h0 := List.mem_takeWhile_imp hc
      simp only [decide_eq_true_eq] at h0
      subst h0; decide
    · rw [← List.takeWhile_append_dropWhile isDigit
        ((takeSign l).2.dropWhile (fun c => c = '0'))] at hc
      rcases List.mem_append.mp hc with hc | hc
      · exact inAlphabet_of_isDigit (List.mem_takeWhile_imp hc)
      · -- fraction and exponent parts
        have hfr : takeFrac (((takeSign l).2.dropWhile (fun c => c = '0')).dropWhile isDigit)
            = ((takeFrac (((takeSign l).2.dropWhile (fun c => c = '0')).dropWhile isDigit)).1,
               (takeFrac (((takeSign l).2.dropWhile (fun c => c = '0')).dropWhile isDigit)).2) := rfl
        rcases takeFrac_inv hfr with ⟨_, h2⟩ | ⟨t, hL3, _, h2⟩
        · rw [← h2] at hc
          exact takeExp_mem hexp c hc
        · rw [hL3] at hc
          rcases List.mem_cons.mp hc with h1 | h1
          · subst h1; decide
          · rw [← List.takeWhile_append_dropWhile isDigit t] at h1
            rcases List.mem_append.mp h1 with h3 | h3
            · exact inAlphabet_of_isDigit (List.mem_takeWhile_imp h3)
            · rw [← h2] at h3
              exact takeExp_mem hexp c h3

/-! ### Top-level unfolding lemmas and remaining helpers -/

theorem Num2FracStr_str_none {s : String} (h : matchNum s.data = none) :
    Num2FracStr (.str s) = .error ("Invalid Number: \"" ++ s ++ "\"") := by
  simp [Num2FracStr, Num2FracStrCore, h]

theorem Num2FracStr_str_some {s : String} {m : NumMatch}
    (h : matchNum s.data = some m) :
    Num2FracStr (.str s) = .ok ⟨finalize m⟩ := by
  simp [Num2FracStr, Num2FracStrCore, h]

theorem Num2FracStr_num_none {r : String} (h : matchNum r.data = none) :
    Num2FracStr (.num r) = .ok r := by
  simp [Num2FracStr, Num2FracStrCore, h]

theorem Num2FracStr_num_some {r : String} {m : NumMatch}
    (h : matchNum r.data = some m) :
    Num2FracStr (.num r) = .ok ⟨finalize m⟩ := by
  simp [Num2FracStr, Num2FracStrCore, h]

theorem digitsToNat_pos_of_hasNZ {l : List Char} (h : hasNonzeroDigit l) :
    0 < digitsToNat l := by
  obtain ⟨x, hx, hxd, hxne⟩ := h
  obtain ⟨s, t, rfl⟩ := List.append_of_mem hx
  have h1 : 0 < digitsToNat (s ++ [x]) := by
    rw [digitsToNat_append]
    have h2 := digitVal_pos hxd hxne
    have h3 : 0 < digitsToNat [x] := by
      rw [digitsToNat_cons]
      simp only [List.length_nil, pow_zero, mul_one, digitsToNat_nil, add_zero]
      exact h2
    omega
  have hshape : s ++ x :: t = (s ++ [x]) ++ t := by simp
  rw [hshape, digitsToNat_append]
  have hp : 0 < (10 : ℕ) ^ t.length := pow_pos (by norm_num) _
  calc 0 < digitsToNat (s ++ [x]) * 10 ^ t.length := Nat.mul_pos h1 hp
    _ ≤ _ := Nat.le_add_right _ _

theorem litVal_ne_zero {l : List Char} {m : NumMatch} (h : matchNum l = some m)
    (hms : m.mantissa_int ++ m.mantissa_frac ≠ []) : litVal m ≠ 0 := by
  rw [litVal_eq_mantissa]
  have h1 : (0 : ℚ) < (digitsToNat (m.mantissa_int ++ m.mantissa_frac) : ℚ) := by
    exact_mod_cast digitsToNat_pos_of_hasNZ (mantissa_hasNZ h hms)
  apply mul_ne_zero (mul_ne_zero ?_ (ne_of_gt h1)) (zpow_ne_zero _ (by norm_num))
  by_cases hsg : m.sign = ['-'] <;> simp [hsg]

/-! ### Agreement of the double layer with the exact-integer layer -/

theorem natToDouble_small {n : Nat} (h : n < 2 ^ 53) :
    natToDouble n = JSNumber.fin (n : Int) := by
  unfold natToDouble roundToDouble
  rw [if_pos h]

theorem expVal_default {c : Char} {t : List Char} (h1 : c ≠ '+') (h2 : c ≠ '-') :
    expVal (c :: t) = (digitsToNat (c :: t) : Int) := by
  unfold expVal
  split
  · rename_i heq
    injection heq with heq1 heq2
    exact absurd heq1 h1
  · rename_i heq
    injection heq with heq1 heq2
    exact absurd heq1 h2
  · rfl

theorem expValJS_default {c : Char} {t : List Char} (h1 : c ≠ '+') (h2 : c ≠ '-') :
    expValJS (c :: t) = natToDouble (digitsToNat (c :: t)) := by
  unfold expValJS
  split
  · rename_i heq
    injection heq with heq1 heq2
    exact absurd heq1 h1
  · rename_i heq
    injection heq with heq1 heq2
    exact absurd heq1 h2
  · rfl

/-- Below `2 ^ 53` the double held in `exponent` is the exact integer. -/
theorem expValJS_small {g : List Char} (h : (expVal g).natAbs < 2 ^ 53) :
    expValJS g = JSNumber.fin (expVal g) := by
  cases g with
  | nil =>
    simp only [expValJS, expVal] at h ⊢
    rw [natToDouble_small (by simpa using h)]
  | cons c t =>
    by_cases h1 : c = '+'
    · subst h1
      simp only [expValJS, expVal] at h ⊢
      rw [natToDouble_small (by simpa using h)]
    · by_cases h2 : c = '-'
      · subst h2
        simp only [expValJS, expVal] at h ⊢
        rw [natToDouble_small (by simpa using h)]
        rfl
      · rw [expVal_default h1 h2] at h
        rw [expValJS_default h1 h2, expVal_default h1 h2]
        rw [natToDouble_small (by simpa using h)]

/-- Double addition is exact while the result stays below `2 ^ 53`. -/
theorem jsAddNat_small {a : Nat} {e : Int} (h : ((a : Int) + e).natAbs < 2 ^ 53) :
    jsAddNat a (JSNumber.fin e) = JSNumber.fin ((a : Int) + e) := by
  show (if 0 ≤ (a : Int) + e then natToDouble (((a : Int) + e).toNat)
    else (natToDouble ((-((a : Int) + e)).toNat)).neg) = JSNumber.fin ((a : Int) + e)
  by_cases h0 : 0 ≤ (a : Int) + e
  · rw [if_pos h0, natToDouble_small (by omega)]
    congr 1
    omega
  · rw [if_neg h0, natToDouble_small (by omega)]
    simp only [JSNumber.neg]
    congr 1
    omega

/-- `padEnd` is the exact-length padding while the target is a positive
integer below `2 ^ 53` (ToLength does not clamp there). -/
theorem jsPadEnd_fin {s : List Char} {k : Int} (hk : 0 < k) (hlt : k.natAbs < 2 ^ 53)
    (hle : (s.length : Int) ≤ k) :
    jsPadEnd s (JSNumber.fin k) = s ++ List.replicate (k - (s.length : Int)).toNat '0' := by
  unfold jsPadEnd
  simp only [JSNumber.toLength]
  rw [if_neg (by omega : ¬ k ≤ 0)]
  have hmin : min k.toNat (2 ^ 53 - 1) = k.toNat := by
    apply min_eq_left
    omega
  rw [hmin]
  by_cases hL : k.toNat ≤ s.length
  · rw [if_pos hL]
    have hz : (k - (s.length : Int)).toNat = 0 := by omega
    rw [hz, List.replicate_zero, List.append_nil]
  · rw [if_neg hL]
    congr 2
    omega

/-- In the exact regime — the exponent group's integer value and the shifted
split point both below `2 ^ 53` in magnitude — the double-faithful
reconstruction returns (no RangeError) and computes exactly the idealized
`returnValue`. -/
theorem reconstructJS_agree {m : NumMatch}
    (hr : ∀ g, m.expGroup = some g → (expVal g).natAbs < 2 ^ 53 ∧
      ((m.mantissa_int.length : Int) + expVal g).natAbs < 2 ^ 53) :
    reconstructJS m = Except.ok (reconstruct m) := by
  cases hg : m.expGroup with
  | none =>
    have hE : m.expNumJS = JSNumber.nan := by
      unfold NumMatch.expNumJS
      rw [hg]
    have ht : m.expNumJS.truthy = false := by rw [hE]; rfl
    have ha : m.expActive = false := by
      unfold NumMatch.expActive
      rw [hg]
    simp only [reconstructJS, reconstruct, ht, ha, Bool.false_eq_true, if_false]
    by_cases hf : m.mantissa_frac ≠ []
    · rw [if_pos hf, if_pos hf]
    · rw [if_neg hf, if_neg hf]
      by_cases hi : m.mantissa_int ≠ []
      · rw [if_pos hi, if_pos hi]
      · rw [if_neg hi, if_neg hi]
  | some g =>
    obtain ⟨h1, h2⟩ := hr g hg
    have hE : m.expNumJS = JSNumber.fin (expVal g) := by
      unfold NumMatch.expNumJS
      rw [hg]
      exact expValJS_small h1
    have hEN : m.expNum = expVal g := by
      unfold NumMatch.expNum
      rw [hg]
    have hA : m.expActive = decide (expVal g ≠ 0) := by
      unfold NumMatch.expActive
      rw [hg]
    by_cases hz : expVal g = 0
    · have ht : m.expNumJS.truthy = false := by
        rw [hE, hz]
        rfl
      have ha : m.expActive = false := by
        rw [hA, hz]
        simp
      simp only [reconstructJS, reconstruct, ht, ha, Bool.false_eq_true, if_false]
      by_cases hf : m.mantissa_frac ≠ []
      · rw [if_pos hf, if_pos hf]
      · rw [if_neg hf, if_neg hf]
        by_cases hi : m.mantissa_int ≠ []
        · rw [if_pos hi, if_pos hi]
        · rw [if_neg hi, if_neg hi]
    · have ht : m.expNumJS.truthy = true := by
        rw [hE]
        simp [JSNumber.truthy, hz]
      have ha : m.expActive = true := by
        rw [hA]
        simp [hz]
      simp only [reconstructJS, reconstruct]
      rw [if_pos ht, if_pos ha]
      by_cases hms : 0 < (m.mantissa_int ++ m.mantissa_frac).length
      · rw [if_pos hms, if_pos hms]
        have hK : jsAddNat m.mantissa_int.length m.expNumJS
            = JSNumber.fin ((m.mantissa_int.length : Int) + expVal g) := by
          rw [hE]
          exact jsAddNat_small h2
        rw [hK, hEN]
        by_cases hb1 : ((m.mantissa_int ++ m.mantissa_frac).length : Int)
            ≤ (m.mantissa_int.length : Int) + expVal g
        · have hb1' : jsLeNat (m.mantissa_int ++ m.mantissa_frac).length
              (JSNumber.fin ((m.mantissa_int.length : Int) + expVal g)) = true := by
            simp only [jsLeNat, decide_eq_true_eq]
            exact hb1
          rw [if_pos hb1', if_pos hb1,
            jsPadEnd_fin (by omega) h2 hb1]
        · have hb1' : jsLeNat (m.mantissa_int ++ m.mantissa_frac).length
              (JSNumber.fin ((m.mantissa_int.length : Int) + expVal g)) = false := by
            simp only [jsLeNat, decide_eq_false_iff_not]
            exact hb1
          rw [hb1', if_neg Bool.false_ne_true, if_neg hb1]
          by_cases hb2 : 0 < (m.mantissa_int.length : Int) + expVal g
          · have hb2' : (JSNumber.fin ((m.mantissa_int.length : Int) + expVal g)).pos
                = true := by
              simp only [JSNumber.pos, decide_eq_true_eq]
              exact hb2
            rw [if_pos hb2', if_pos hb2]
            rfl
          · have hb2' : (JSNumber.fin ((m.mantissa_int.length : Int) + expVal g)).pos
                = false := by
              simp only [JSNumber.pos, decide_eq_false_iff_not]
              exact hb2
            rw [hb2', if_neg Bool.false_ne_true, if_neg hb2]
            have hrep : jsRepeatZero (JSNumber.fin
                (-((m.mantissa_int.length : Int) + expVal g)))
                = Except.ok (List.replicate
                    (-((m.mantissa_int.length : Int) + expVal g)).toNat '0') := by
              show (if -((m.mantissa_int.length : Int) + expVal g) < 0
                then Except.error ()
                else Except.ok (List.replicate
                  (-((m.mantissa_int.length : Int) + expVal g)).toNat '0')) = _
              rw [if_neg (by omega :
                ¬ -((m.mantissa_int.length : Int) + expVal g) < 0)]
            show (jsRepeatZero (JSNumber.fin
              (-((m.mantissa_int.length : Int) + expVal g)))).map
                (fun zs => '0' :: '.' :: (zs ++ (m.mantissa_int ++ m.mantissa_frac))) = _
            rw [hrep]
            rfl
      · rw [if_neg hms, if_neg hms]

/-- In the exact regime the whole double-faithful function and the idealized
one produce the same output. -/
theorem finalizeJS_agree {m : NumMatch}
    (hr : ∀ g, m.expGroup = some g → (expVal g).natAbs < 2 ^ 53 ∧
      ((m.mantissa_int.length : Int) + expVal g).natAbs < 2 ^ 53) :
    finalizeJS m = Except.ok (finalize m) := by
  unfold finalizeJS
  rw [reconstructJS_agree hr]
  rfl

theorem Num2FracStrJS_str_ok {s : String} {m : NumMatch} (hm : matchNum s.data = some m)
    (hr : ∀ g, m.expGroup = some g → (expVal g).natAbs < 2 ^ 53 ∧
      ((m.mantissa_int.length : Int) + expVal g).natAbs < 2 ^ 53) :
    Num2FracStrJS (.str s) = .ok ⟨finalize m⟩ := by
  simp only [Num2FracStrJS, hm, finalizeJS_agree hr]

theorem Num2FracStrJS_str_err {s : String} (h : matchNum s.data = none) :
    Num2FracStrJS (.str s)
      = .error (.invalidNumber ("Invalid Number: \"" ++ s ++ "\"")) := by
  simp only [Num2FracStrJS]
  rw [h]

theorem Num2FracStrJS_num_passthrough {r : String} (h : matchNum r.data = none) :
    Num2FracStrJS (.num r) = .ok r := by
  simp only [Num2FracStrJS]
  rw [h]

/-- Unfolding of the double-faithful reconstruction in the `"0".repeat`
branch with a finite `mantissa_int_len`. -/
theorem reconstructJS_repeat {m : NumMatch} {k : Int}
    (ht : m.expNumJS.truthy = true)
    (hms : 0 < (m.mantissa_int ++ m.mantissa_frac).length)
    (hK : jsAddNat m.mantissa_int.length m.expNumJS = JSNumber.fin k)
    (h1 : ¬ ((m.mantissa_int ++ m.mantissa_frac).length : Int) ≤ k)
    (h2 : ¬ 0 < k) :
    reconstructJS m = Except.ok ('0' :: '.' ::
      (List.replicate (-k).toNat '0' ++ (m.mantissa_int ++ m.mantissa_frac))) := by
  simp only [reconstructJS]
  rw [if_pos ht, if_pos hms, hK]
  have hb1' : jsLeNat (m.mantissa_int ++ m.mantissa_frac).length (JSNumber.fin k)
      = false := by
    simp only [jsLeNat, decide_eq_false_iff_not]
    exact h1
  have hb2' : (JSNumber.fin k).pos = false := by
    simp only [JSNumber.pos, decide_eq_false_iff_not]
    exact h2
  rw [hb1', if_neg Bool.false_ne_true, hb2', if_neg Bool.false_ne_true]
  have hrep : jsRepeatZero (JSNumber.fin (-k))
      = Except.ok (List.replicate (-k).toNat '0') := by
    show (if -k < 0 then Except.error ()
      else Except.ok (List.replicate (-k).toNat '0')) = _
    rw [if_neg (by omega : ¬ -k < 0)]
  show (jsRepeatZero (JSNumber.fin (-k))).map
    (fun zs => '0' :: '.' :: (zs ++ (m.mantissa_int ++ m.mantissa_frac))) = _
  rw [hrep]
  rfl

/-! ### The claims -/

/-- The literal `"1e-"` followed by 309 nines.  It matches the grammar, but
the exponent group's magnitude exceeds the double range, so `Number(match[4])`
is `-Infinity` and the reconstruction reaches `"0".repeat(+Infinity)`. -/
def hugeNegExp : List Char := '1' :: 'e' :: '-' :: List.replicate 309 '9'

/-- C1 counterexample: `"1e-999…9"` (309 nines) is accepted by the grammar,
yet the function returns no string at all: the exponent saturates to
`-Infinity` and `"0".repeat(+Infinity)` throws a RangeError, so no returned
string denoting the literal's value exists. -/
theorem claim_C1_counterexample :
    IsRawLit ⟨[], ['1'], none, some ('-' :: List.replicate 309 '9')⟩ 'e' hugeNegExp ∧
    Num2FracStrJS (.str ⟨hugeNegExp⟩) = .error JSErr.rangeError := by
  constructor
  · refine ⟨Or.inl rfl, by decide, ?_, ?_, Or.inl rfl, rfl⟩
    · intro f hf
      exact absurd hf (by simp)
    · intro g hg
      injection hg with hg
      subst hg
      refine ⟨['-'], List.replicate 309 '9', Or.inr (Or.inr rfl), ?_, ?_, rfl⟩
      · intro hx
        have hlen := congrArg List.length hx
        rw [List.length_replicate] at hlen
        exact absurd hlen (by decide)
      · intro c hc
        rw [List.eq_of_mem_replicate hc]
        decide
  · rfl

/-- C1 amended: the value-exactness statement holds for every grammar literal
whose exponent arithmetic stays in the exactly-representable double range:
when the exponent group's integer value and the shifted split point both have
magnitude below `2 ^ 53`, the double-faithful function returns a string
denoting exactly `sign * (integerDigits.fractionalDigits) * 10 ^ exponent` in
exact rational arithmetic. -/
theorem claim_C1_amended (p : RawParts) (em : Char) (l : List Char) (h : IsRawLit p em l)
    (hexp : ∀ g, p.ep = some g → (expVal g).natAbs < 2 ^ 53 ∧
      (((p.ip.dropWhile (fun c => c = '0')).length : Int) + expVal g).natAbs < 2 ^ 53) :
    ∃ out : String, Num2FracStrJS (.str ⟨l⟩) = .ok out ∧ strVal out = some (rawVal p) := by
  have hm : matchNum (⟨l⟩ : String).data
      = some ⟨p.sg, p.ip.dropWhile (fun c => c = '0'), p.fp.map rstripZeros, p.ep⟩ :=
    matchNum_rawLit h
  have hval : litVal ⟨p.sg, p.ip.dropWhile (fun c => c = '0'),
      p.fp.map rstripZeros, p.ep⟩ = rawVal p := litVal_dropAndStrip p
  obtain ⟨m', h1, _, h3⟩ := finalize_reparse hm
  refine ⟨⟨finalize ⟨p.sg, p.ip.dropWhile (fun c => c = '0'),
    p.fp.map rstripZeros, p.ep⟩⟩, Num2FracStrJS_str_ok hm hexp, ?_⟩
  unfold strVal
  rw [show (⟨finalize ⟨p.sg, p.ip.dropWhile (fun c => c = '0'),
      p.fp.map rstripZeros, p.ep⟩⟩ : String).data
    = finalize ⟨p.sg, p.ip.dropWhile (fun c => c = '0'),
      p.fp.map rstripZeros, p.ep⟩ from rfl, h1]
  rw [Option.map_some', h3, hval]

/-- Witness for C1 (amended) at the literal `-01.50e+2`, exact value `-150`. -/
theorem claim_C1_witness :
    ∃ out : String, Num2FracStrJS (.str "-01.50e+2") = .ok out
      ∧ strVal out = some (-150) := by
  have hraw : IsRawLit ⟨['-'], ['0', '1'], some ['5', '0'], some ['+', '2']⟩ 'e'
      "-01.50e+2".data := by
    refine ⟨Or.inr (Or.inr rfl), by decide, ?_, ?_, Or.inl rfl, by decide⟩
    · intro f hf
      injection hf with hf
      subst hf
      decide
    · intro g hg
      injection hg with hg
      subst hg
      exact ⟨['+'], ['2'], Or.inr (Or.inl rfl), by decide, by decide, rfl⟩
  have h := claim_C1_amended ⟨['-'], ['0', '1'], some ['5', '0'], some ['+', '2']⟩ 'e'
    "-01.50e+2".data hraw
    (fun g hg => by
      injection hg with hg
      subst hg
      exact ⟨by decide, by decide⟩)
  have hv : rawVal ⟨['-'], ['0', '1'], some ['5', '0'], some ['+', '2']⟩ = -150 := by
    have h1 : digitsToNat ['0', '1'] = 1 := by decide
    have h2 : digitsToNat ['5', '0'] = 50 := by decide
    have h3 : expVal ['+', '2'] = 2 := by decide
    simp only [rawVal, Option.getD_some, h1, h2, h3]
    norm_num
  rw [hv] at h
  exact h

/-- The reconstruction step as the specification phrases it: with
`splitPoint = intLen + exponent`, pad the mantissa with
`splitPoint - length(mantissa)` zeros when `splitPoint >= length(mantissa)`,
split it as `mantissa[0:splitPoint] ++ "." ++ mantissa[splitPoint:]` when
`0 < splitPoint < length(mantissa)`, and produce
`"0." ++ "0"*(-splitPoint) ++ mantissa` when `splitPoint <= 0`. -/
def specShift (mantissa : List Char) (intLen : Nat) (e : Int) : List Char :=
  if (mantissa.length : Int) ≤ (intLen : Int) + e then
    mantissa ++ List.replicate (((intLen : Int) + e) - (mantissa.length : Int)).toNat '0'
  else if 0 < (intLen : Int) + e then
    mantissa.take ((intLen : Int) + e).toNat ++ '.' :: mantissa.drop ((intLen : Int) + e).toNat
  else
    '0' :: '.' :: (List.replicate (-((intLen : Int) + e)).toNat '0' ++ mantissa)

/-- With nonzero exponent and nonempty mantissa, the exact-integer-exponent
`returnValue` is the specification's split-point construction. -/
theorem reconstruct_specShift (m : NumMatch) (hexp : m.expActive = true)
    (hne : m.mantissa_int ++ m.mantissa_frac ≠ []) :
    reconstruct m
      = specShift (m.mantissa_int ++ m.mantissa_frac) m.mantissa_int.length m.expNum := by
  by_cases hk1 : (((m.mantissa_int ++ m.mantissa_frac).length : Int))
      ≤ (m.mantissa_int.length : Int) + m.expNum
  · rw [reconstruct_pad hexp hne hk1]
    simp only [specShift]
    rw [if_pos hk1]
  · by_cases hk2 : 0 < (m.mantissa_int.length : Int) + m.expNum
    · rw [reconstruct_slice hexp hne hk1 hk2]
      simp only [specShift]
      rw [if_neg hk1, if_pos hk2]
    · rw [reconstruct_small hexp hne hk1 hk2]
      simp only [specShift]
      rw [if_neg hk1, if_neg hk2]

/-- The parse of `"1e-9007199254740993"`: its exponent digits denote
`-(2 ^ 53 + 1)`, which is not representable as a double — `Number(match[4])`
rounds it (ties to even) to `-(2 ^ 53)`, so the built string carries one zero
fewer than the split-point construction at the literal's exact exponent. -/
def tieMatch : NumMatch :=
  ⟨[], ['1'], none,
    some ['-', '9', '0', '0', '7', '1', '9', '9', '2', '5', '4', '7', '4', '0', '9', '9', '3']⟩

/-- C2 counterexample: on the parsed literal of `"1e-9007199254740993"`
(nonzero exponent, nonempty mantissa) the `returnValue` the source builds
differs from the claimed split-point construction at the literal's exponent:
the exponent double rounds to `-(2 ^ 53)` and one zero is lost. -/
theorem claim_C2_counterexample :
    matchNum ('1' :: 'e' :: '-' :: ['9', '0', '0', '7', '1', '9', '9', '2', '5', '4',
        '7', '4', '0', '9', '9', '3']) = some tieMatch ∧
    reconstructJS tieMatch
      ≠ Except.ok (specShift (tieMatch.mantissa_int ++ tieMatch.mantissa_frac)
          tieMatch.mantissa_int.length tieMatch.expNum) := by
  refine ⟨by decide, ?_⟩
  intro hcon
  have hK : jsAddNat tieMatch.mantissa_int.length tieMatch.expNumJS
      = JSNumber.fin (-9007199254740991) := by decide
  have hL := reconstructJS_repeat (by decide) (by decide) hK (by decide) (by decide)
  rw [hL] at hcon
  have htn : (-((tieMatch.mantissa_int.length : Int) + tieMatch.expNum)).toNat
      = ((9007199254740992 : Int)).toNat := by decide
  have hS : specShift (tieMatch.mantissa_int ++ tieMatch.mantissa_frac)
      tieMatch.mantissa_int.length tieMatch.expNum
      = '0' :: '.' :: (List.replicate ((9007199254740992 : Int)).toNat '0'
          ++ (tieMatch.mantissa_int ++ tieMatch.mantissa_frac)) := by
    simp only [specShift]
    rw [if_neg (by decide), if_neg (by decide), htn]
  rw [hS] at hcon
  injection hcon with hcon
  have hlen := congrArg List.length hcon
  rw [List.length_cons, List.length_cons, List.length_cons, List.length_cons,
    List.length_append, List.length_append, List.length_append, List.length_append,
    List.length_replicate, List.length_replicate] at hlen
  clear hcon hS hL hK
  omega

/-- C2 amended: the split-point description is exact whenever the exponent
arithmetic stays in the exactly-representable double range (exponent value and
split point below `2 ^ 53` in magnitude): there the double-faithful
reconstruction returns, and equals the specification's three-case
construction. -/
theorem claim_C2_amended (m : NumMatch)
    (hr : ∀ g, m.expGroup = some g → (expVal g).natAbs < 2 ^ 53 ∧
      ((m.mantissa_int.length : Int) + expVal g).natAbs < 2 ^ 53)
    (hexp : m.expActive = true)
    (hne : m.mantissa_int ++ m.mantissa_frac ≠ []) :
    reconstructJS m
      = Except.ok (specShift (m.mantissa_int ++ m.mantissa_frac)
          m.mantissa_int.length m.expNum) := by
  rw [reconstructJS_agree hr, reconstruct_specShift m hexp hne]

/-- Witness for C2 (amended) at the parsed literal of `"12.145e-2"`. -/
theorem claim_C2_witness :
    reconstructJS ⟨[], ['1', '2'], some ['1', '4', '5'], some ['-', '2']⟩
      = Except.ok (specShift (['1', '2'] ++ ['1', '4', '5']) 2 (-2)) :=
  claim_C2_amended ⟨[], ['1', '2'], some ['1', '4', '5'], some ['-', '2']⟩
    (fun g hg => by
      injection hg with hg
      subst hg
      exact ⟨by decide, by decide⟩)
    (by decide) (by decide)

/-- C3 counterexample: the grammar-matching string `"1e-999…9"` (309 nines)
raises — not the invalid-number error, but the RangeError thrown by
`"0".repeat(+Infinity)`, which does not carry the offending string — so
"raises exactly on inputs whose text fails the grammar" is false. -/
theorem claim_C3_counterexample :
    (matchNum hugeNegExp).isSome = true ∧
    Num2FracStrJS (.str ⟨hugeNegExp⟩) = .error JSErr.rangeError :=
  ⟨rfl, rfl⟩

/-- C3 amended: the invalid-number error is raised exactly on string inputs
whose text fails the grammar, and it carries the offending string; numeric
inputs never raise the invalid-number error, and those failing the grammar
are passed through unchanged (in particular the three special renderings);
string inputs matching the grammar return normally whenever the exponent
arithmetic stays below `2 ^ 53`.  (A grammar-matching input whose exponent
saturates can instead raise a RangeError, which does not carry the string.) -/
theorem claim_C3_amended :
    (∀ inp : JSInput, (∃ e, Num2FracStrJS inp = .error (JSErr.invalidNumber e)) ↔
      ∃ s, inp = .str s ∧ matchNum s.data = none) ∧
    (∀ s : String, matchNum s.data = none →
      Num2FracStrJS (.str s) = .error (.invalidNumber ("Invalid Number: \"" ++ s ++ "\""))) ∧
    (∀ r : String, ∀ e, Num2FracStrJS (.num r) ≠ .error (JSErr.invalidNumber e)) ∧
    (∀ r : String, matchNum r.data = none → Num2FracStrJS (.num r) = .ok r) ∧
    (∀ (s : String) (m : NumMatch), matchNum s.data = some m →
      (∀ g, m.expGroup = some g → (expVal g).natAbs < 2 ^ 53 ∧
        ((m.mantissa_int.length : Int) + expVal g).natAbs < 2 ^ 53) →
      ∃ out, Num2FracStrJS (.str s) = .ok out) ∧
    (matchNum "NaN".data = none ∧ Num2FracStrJS (.num "NaN") = .ok "NaN") ∧
    (matchNum "Infinity".data = none ∧ Num2FracStrJS (.num "Infinity") = .ok "Infinity") ∧
    (matchNum "-Infinity".data = none ∧ Num2FracStrJS (.num "-Infinity") = .ok "-Infinity") := by
  have hnum : ∀ (r : String) (m : NumMatch), matchNum r.data = some m →
      (Num2FracStrJS (.num r) = .error JSErr.rangeError ∨
       ∃ out, Num2FracStrJS (.num r) = .ok out) := by
    intro r m hm
    cases hf : finalizeJS m with
    | ok out =>
      refine Or.inr ⟨⟨out⟩, ?_⟩
      simp only [Num2FracStrJS, hm, hf]
    | error u =>
      refine Or.inl ?_
      simp only [Num2FracStrJS, hm, hf]
  have hstr : ∀ (s : String) (m : NumMatch), matchNum s.data = some m →
      (Num2FracStrJS (.str s) = .error JSErr.rangeError ∨
       ∃ out, Num2FracStrJS (.str s) = .ok out) := by
    intro s m hm
    cases hf : finalizeJS m with
    | ok out =>
      refine Or.inr ⟨⟨out⟩, ?_⟩
      simp only [Num2FracStrJS, hm, hf]
    | error u =>
      refine Or.inl ?_
      simp only [Num2FracStrJS, hm, hf]
  refine ⟨?_, fun s h => Num2FracStrJS_str_err h, ?_,
    fun r h => Num2FracStrJS_num_passthrough h, ?_, ⟨rfl, rfl⟩, ⟨rfl, rfl⟩, ⟨rfl, rfl⟩⟩
  · intro inp
    constructor
    · rintro ⟨e, he⟩
      cases inp with
      | num r =>
        cases hm : matchNum r.data with
        | none =>
          rw [Num2FracStrJS_num_passthrough hm] at he
          exact absurd he (by simp)
        | some m =>
          rcases hnum r m hm with hx | ⟨out, hx⟩ <;> rw [hx] at he <;> simp at he
      | str s =>
        refine ⟨s, rfl, ?_⟩
        cases hm : matchNum s.data with
        | none => rfl
        | some m =>
          rcases hstr s m hm with hx | ⟨out, hx⟩ <;> rw [hx] at he <;> simp at he
    · rintro ⟨s, rfl, hm⟩
      exact ⟨_, Num2FracStrJS_str_err hm⟩
  · intro r e he
    cases hm : matchNum r.data with
    | none =>
      rw [Num2FracStrJS_num_passthrough hm] at he
      exact absurd he (by simp)
    | some m =>
      rcases hnum r m hm with hx | ⟨out, hx⟩ <;> rw [hx] at he <;> simp at he
  · intro s m hm hr
    exact ⟨⟨finalize m⟩, Num2FracStrJS_str_ok hm hr⟩

/-- Witness for C3 (amended) at the failing string `"abc"`. -/
theorem claim_C3_witness :
    Num2FracStrJS (.str "abc")
      = .error (.invalidNumber ("Invalid Number: \"" ++ "abc" ++ "\"")) ∧
    Num2FracStrJS (.num "abc") = .ok "abc" :=
  ⟨claim_C3_amended.2.1 "abc" rfl, claim_C3_amended.2.2.2.1 "abc" rfl⟩

/-- A JS number rendering: either a finite rendering, which always matches the
grammar, or one of the three special tokens. -/
def ValidRendering (r : String) : Prop :=
  (matchNum r.data).isSome = true ∨ r = "NaN" ∨ r = "Infinity" ∨ r = "-Infinity"

theorem outputCanonical_special {s : String}
    (h : s = "NaN" ∨ s = "Infinity" ∨ s = "-Infinity") : OutputCanonical s.data := by
  rcases h with rfl | rfl | rfl
  · refine ⟨by decide, by decide, "NaN".data, Or.inl ⟨rfl, by decide⟩, ?_, by decide⟩
    intro x rest hx
    rw [show ("NaN" : String).data = ['N', 'a', 'N'] from rfl] at hx
    exact absurd hx (by simp)
  · refine ⟨by decide, by decide, "Infinity".data, Or.inl ⟨rfl, by decide⟩, ?_, by decide⟩
    intro x rest hx
    rw [show ("Infinity" : String).data
      = ['I', 'n', 'f', 'i', 'n', 'i', 't', 'y'] from rfl] at hx
    exact absurd hx (by simp)
  · refine ⟨by decide, by decide, "Infinity".data, Or.inr rfl, ?_, by decide⟩
    intro x rest hx
    rw [show ("Infinity" : String).data
      = ['I', 'n', 'f', 'i', 'n', 'i', 't', 'y'] from rfl] at hx
    exact absurd hx (by simp)

/-- C4: on every input on which the conversion returns (string inputs, and
numeric inputs with an actual JS rendering), the output has no exponent marker
`e`/`E`, at most one decimal point, a leading `'0'` only as the whole unsigned
output or directly before the decimal point, and no trailing zero after a
decimal point. -/
theorem claim_C4 (inp : JSInput) (out : String)
    (hv : ∀ r, inp = .num r → ValidRendering r)
    (hok : Num2FracStr inp = .ok out) : OutputCanonical out.data := by
  cases inp with
  | str s =>
    cases hm : matchNum s.data with
    | none =>
      rw [Num2FracStr_str_none hm] at hok
      exact absurd hok (by simp)
    | some m =>
      rw [Num2FracStr_str_some hm] at hok
      obtain rfl := (Except.ok.injEq _ _ ▸ hok)
      exact finalize_canonical hm
  | num r =>
    cases hm : matchNum r.data with
    | some m =>
      rw [Num2FracStr_num_some hm] at hok
      obtain rfl := (Except.ok.injEq _ _ ▸ hok)
      exact finalize_canonical hm
    | none =>
      rw [Num2FracStr_num_none hm] at hok
      obtain rfl := (Except.ok.injEq _ _ ▸ hok)
      rcases hv r rfl with hsome | hsp
      · rw [hm] at hsome
        exact absurd hsome (by simp)
      · exact outputCanonical_special hsp

/-- Witness for C4 at the string input `"1.2300"` with output `"1.23"`. -/
theorem claim_C4_witness : OutputCanonical ("1.23" : String).data :=
  claim_C4 (.str "1.2300") "1.23" (fun _ hr => nomatch hr) rfl

/-- C5: the output begins with `'-'` iff the parsed sign was `'-'` and the
literal's magnitude is nonzero; and all the zero-valued inputs — the numeric
values `0` and `-0` (both render as `"0"`), `"0"`, `"0.0"`, `"0e10"`, `"-0"`,
`"-0.00"` and `"-0e5"` — convert to exactly `"0"`. -/
theorem claim_C5 :
    (∀ (s : String) (m : NumMatch) (out : String), matchNum s.data = some m →
      Num2FracStr (.str s) = .ok out →
      (out.data.head? = some '-' ↔ m.sign = ['-'] ∧ litVal m ≠ 0)) ∧
    Num2FracStr (.num "0") = .ok "0" ∧
    Num2FracStr (.str "0") = .ok "0" ∧
    Num2FracStr (.str "0.0") = .ok "0" ∧
    Num2FracStr (.str "0e10") = .ok "0" ∧
    Num2FracStr (.str "-0") = .ok "0" ∧
    Num2FracStr (.str "-0.00") = .ok "0" ∧
    Num2FracStr (.str "-0e5") = .ok "0" := by
  refine ⟨?_, rfl, rfl, rfl, rfl, rfl, rfl, rfl⟩
  intro s m out hm hok
  rw [Num2FracStr_str_some hm] at hok
  obtain rfl := (Except.ok.injEq _ _ ▸ hok)
  rw [show (⟨finalize m⟩ : String).data = finalize m from rfl]
  by_cases hrv : reconstruct m = []
  · rw [finalize_of_nil hrv]
    constructor
    · intro hh
      exact absurd hh (by decide)
    · rintro ⟨_, hv⟩
      exact absurd (litVal_zero_of_empty_mantissa ((reconstruct_eq_nil_iff m).mp hrv)) hv
  · have hms : m.mantissa_int ++ m.mantissa_frac ≠ [] := by
      intro hcon
      exact hrv ((reconstruct_eq_nil_iff m).mpr hcon)
    have hnz := litVal_ne_zero hm hms
    rw [finalize_of_ne_nil hrv]
    by_cases hsg : m.sign = ['-']
    · rw [if_pos hsg]
      simp only [List.singleton_append, List.head?_cons]
      exact ⟨fun _ => ⟨hsg, hnz⟩, fun _ => trivial⟩
    · rw [if_neg hsg, List.nil_append]
      constructor
      · intro hh
        exact absurd hh (canonCore_head_not_minus (strips_canon (reconstruct_good hm hrv)))
      · rintro ⟨hcon, _⟩
        exact absurd hcon hsg

/-- Witness for C5 at the input `"-1"`. -/
theorem claim_C5_witness :
    ("-1" : String).data.head? = some '-'
      ↔ (⟨['-'], ['1'], none, none⟩ : NumMatch).sign = ['-']
        ∧ litVal ⟨['-'], ['1'], none, none⟩ ≠ 0 :=
  claim_C5.1 "-1" ⟨['-'], ['1'], none, none⟩ "-1" rfl rfl

/-- C6 counterexample: the numeric not-a-number value renders as `"NaN"` and
is returned unchanged, but applying the conversion to the returned string
`"NaN"` raises instead of returning it: idempotence fails on the special
numeric values. -/
theorem claim_C6_counterexample :
    Num2FracStr (.num "NaN") = .ok "NaN" ∧
    Num2FracStr (.str "NaN") = .error ("Invalid Number: \"" ++ "NaN" ++ "\"") :=
  ⟨rfl, rfl⟩

/-- C6 amended: for every input whose textual form matches the grammar (all
string inputs on which the conversion returns, and numeric inputs other than
the specials), converting the returned string again returns it unchanged and
does not raise. -/
theorem claim_C6_amended (inp : JSInput) (out : String)
    (hv : ∀ r, inp = .num r → (matchNum r.data).isSome = true)
    (hok : Num2FracStr inp = .ok out) :
    Num2FracStr (.str out) = .ok out := by
  have hcore : ∃ m : NumMatch, out = ⟨finalize m⟩ ∧ ∃ l, matchNum l = some m := by
    cases inp with
    | str s =>
      cases hm : matchNum s.data with
      | none =>
        rw [Num2FracStr_str_none hm] at hok
        exact absurd hok (by simp)
      | some m =>
        rw [Num2FracStr_str_some hm] at hok
        exact ⟨m, ((Except.ok.injEq _ _ ▸ hok)).symm, s.data, hm⟩
    | num r =>
      cases hm : matchNum r.data with
      | none =>
        have hvr := hv r rfl
        rw [hm] at hvr
        exact absurd hvr (by simp)
      | some m =>
        rw [Num2FracStr_num_some hm] at hok
        exact ⟨m, ((Except.ok.injEq _ _ ▸ hok)).symm, r.data, hm⟩
  obtain ⟨m, rfl, l, hm⟩ := hcore
  obtain ⟨m', h1, h2, _⟩ := finalize_reparse hm
  rw [Num2FracStr_str_some (show matchNum ((⟨finalize m⟩ : String)).data = some m' from h1)]
  rw [show (⟨finalize m'⟩ : String) = ⟨finalize m⟩ from congrArg String.mk h2]

/-- Witness for C6 (amended) at the string input `"1.2300"`. -/
theorem claim_C6_witness : Num2FracStr (.str "1.23") = .ok "1.23" :=
  claim_C6_amended (.str "1.2300") "1.23" (fun _ hr => nomatch hr) rfl

/-- C7: the concrete scenarios. The numeric inputs are given through their JS
renderings: `String(12.145e+3) = "12145"`, `String(12.145e-2) = "0.12145"`
and `String(-0.0001) = "-0.0001"` (ECMAScript Number-to-String produces the
shortest round-trip decimal form, without an exponent in this range). -/
theorem claim_C7 :
    Num2FracStr (.num "12145") = .ok "12145" ∧
    Num2FracStr (.num "0.12145") = .ok "0.12145" ∧
    Num2FracStr (.str "1.2300") = .ok "1.23" ∧
    Num2FracStr (.num "-0.0001") = .ok "-0.0001" ∧
    Num2FracStr (.str "007.50") = .ok "7.5" ∧
    Num2FracStr (.str "not-a-number-string")
      = .error ("Invalid Number: \"" ++ "not-a-number-string" ++ "\"") :=
  ⟨rfl, rfl, rfl, rfl, rfl, rfl⟩

/-- C8: for every input matching the grammar, the parsed literal satisfies the
data-model invariants: the integer digits never start with `'0'` followed by
another digit, and nonempty fraction digits never end in `'0'`. -/
theorem claim_C8 (s : String) (m : NumMatch) (h : matchNum s.data = some m) :
    (¬ ∃ c rest, m.mantissa_int = '0' :: c :: rest ∧ isDigit c = true) ∧
    (m.mantissa_frac ≠ [] → m.mantissa_frac.getLast? ≠ some '0') := by
  obtain ⟨_, _, hih, _, hfl⟩ := matchNum_fields h
  refine ⟨?_, fun _ => hfl⟩
  rintro ⟨c, rest, hcr, _⟩
  exact hih (by rw [hcr]; rfl)

/-- Witness for C8 at `"007.50"`, which parses to integer digits `"7"` and
fraction digits `"5"`. -/
theorem claim_C8_witness :
    (¬ ∃ c rest, (⟨[], ['7'], some ['5'], none⟩ : NumMatch).mantissa_int
        = '0' :: c :: rest ∧ isDigit c = true) ∧
    ((⟨[], ['7'], some ['5'], none⟩ : NumMatch).mantissa_frac ≠ [] →
      (⟨[], ['7'], some ['5'], none⟩ : NumMatch).mantissa_frac.getLast? ≠ some '0') :=
  claim_C8 "007.50" ⟨[], ['7'], some ['5'], none⟩ rfl

/-- C9: every string whose mantissa has no digit — such as `""`, `"."`, `"-"`,
`"+"`, `"e5"` and `"-.e3"` — matches the grammar with empty digit groups, does
not raise, and converts to `"0"`. -/
theorem claim_C9 :
    (∀ (s : String) (m : NumMatch), matchNum s.data = some m →
      m.mantissa_int = [] → m.mantissa_frac = [] →
      Num2FracStr (.str s) = .ok "0") ∧
    Num2FracStr (.str "") = .ok "0" ∧
    Num2FracStr (.str ".") = .ok "0" ∧
    Num2FracStr (.str "-") = .ok "0" ∧
    Num2FracStr (.str "+") = .ok "0" ∧
    Num2FracStr (.str "e5") = .ok "0" ∧
    Num2FracStr (.str "-.e3") = .ok "0" := by
  refine ⟨?_, rfl, rfl, rfl, rfl, rfl, rfl⟩
  intro s m hm hi hf
  rw [Num2FracStr_str_some hm]
  have hrv : reconstruct m = [] := (reconstruct_eq_nil_iff m).mpr (by rw [hi, hf]; rfl)
  rw [finalize_of_nil hrv]

/-- Witness for C9 at `"e5"`. -/
theorem claim_C9_witness : Num2FracStr (.str "e5") = .ok "0" :=
  claim_C9.1 "e5" ⟨[], [], none, some ['5']⟩ rfl rfl rfl

/-- C10: the grammar match is anchored at both ends and nothing is trimmed:
surrounding a valid numeric literal with any nonempty leading or trailing
whitespace makes the string input raise the invalid-number error. -/
theorem claim_C10 (s : String) (pre post : List Char)
    (hpre : ∀ c ∈ pre, isWhitespaceChar c = true)
    (hpost : ∀ c ∈ post, isWhitespaceChar c = true)
    (hne : pre ++ post ≠ [])
    (hvalid : (matchNum s.data).isSome = true) :
    Num2FracStr (.str ⟨pre ++ s.data ++ post⟩)
      = .error ("Invalid Number: \""
          ++ (⟨pre ++ s.data ++ post⟩ : String) ++ "\"") := by
  have hnone : matchNum (pre ++ s.data ++ post) = none := by
    cases hm : matchNum (pre ++ s.data ++ post) with
    | none => rfl
    | some m2 =>
      have halpha := matchNum_alphabet hm
      have hwit : ∃ c, c ∈ pre ++ s.data ++ post ∧ isWhitespaceChar c = true := by
        cases hp : pre with
        | cons c t =>
          exact ⟨c, by simp, hpre c (by rw [hp]; simp)⟩
        | nil =>
          cases hq : post with
          | nil => exact absurd (by rw [hp, hq]; rfl) hne
          | cons c t =>
            exact ⟨c, by simp, hpost c (by rw [hq]; simp)⟩
      obtain ⟨c, hcmem, hw⟩ := hwit
      have h1 := halpha c hcmem
      rw [ws_not_alphabet hw] at h1
      exact absurd h1 (by simp)
  exact Num2FracStr_str_none hnone

/-- Witness for C10 at `" 1"` (the literal `"1"` with one leading space). -/
theorem claim_C10_witness :
    Num2FracStr (.str ⟨[' '] ++ ("1" : String).data ++ []⟩)
      = .error ("Invalid Number: \""
          ++ (⟨[' '] ++ ("1" : String).data ++ []⟩ : String) ++ "\"") :=
  claim_C10 "1" [' '] [] (by decide) (by decide) (by decide) rfl


end Num2DecStr
